import Mathlib

/-!
# SeedPay torrent page: rate curve and job registry

A shallow embedding of the torrent part of `src/qt/overviewpage.cpp`
(`rateFromValue`, `addTorrent`, `removeTorrent`, `torrentError`,
`moveTorrentUp`, `moveTorrentDown`, `loadSettings`, `saveSettings`, ...)
together with theorems about it.

Conventions of the embedding
* C++ `int` values are `Int`; the inputs considered stay far inside the 32-bit range.
* `double` arithmetic is IEEE-754 binary64 with round-to-nearest-even, modelled
  exactly on rationals `n / d` (no Lean `Float`).
* Pointers (`TorrentClient *`, `QTreeWidgetItem *`) are natural numbers handed out
  by a bump allocator stored in the state.
* An out-of-range `QList::at` / `operator[]` (an assertion failure in Qt) makes the
  operation return `none`.
-/

namespace SeedPay

/-! ## IEEE-754 binary64 arithmetic used by `rateFromValue` -/

/-- Nearest natural number to `n / d`, ties going to the even neighbour. -/
def roundHalfEven (n d : Nat) : Nat :=
  let q := n / d
  let r := n % d
  if 2 * r < d then q
  else if d < 2 * r then q + 1
  else if q % 2 = 0 then q else q + 1

/-- The fraction `(n / d) / 2 ^ e` as a numerator/denominator pair. -/
def scaleBy (n d : Nat) (e : Int) : Nat × Nat :=
  if 0 ≤ e then (n, d * 2 ^ e.toNat) else (n * 2 ^ (-e).toNat, d)

/-- Binary logarithm by repeated halving; `fuel` bounds the number of halvings. -/
def ilog2Aux : Nat → Nat → Nat
  | 0, _ => 0
  | fuel + 1, n => if n < 2 then 0 else ilog2Aux fuel (n / 2) + 1

/-- The binary logarithm `⌊log₂ n⌋` (and `0` for `n = 0`); `n` halvings always suffice. -/
def ilog2 (n : Nat) : Nat := ilog2Aux n n

/-- The integer `k` with `2 ^ k ≤ n / d < 2 ^ (k + 1)`, for `0 < n` and `0 < d`. -/
def binade (n d : Nat) : Int :=
  let k : Int := (ilog2 n : Int) - (ilog2 d : Int)
  let p := scaleBy n d k
  if p.2 ≤ p.1 then k else k - 1

/-- A finite binary64 number `(-1) ^ neg * man * 2 ^ exp`, with `man < 2 ^ 53`. -/
structure Double where
  neg : Bool
  man : Nat
  exp : Int
  deriving DecidableEq, Repr

/-- The binary64 number nearest to `± n / d` (round to nearest, ties to even).
The exponent range of binary64 is not modelled: every value met by `rateFromValue`
on a 32-bit `int` is a normal number. -/
def roundToDouble (neg : Bool) (n d : Nat) : Double :=
  if n = 0 then ⟨neg, 0, 0⟩
  else
    let e := binade n d - 52
    let p := scaleBy n d e
    let m := roundHalfEven p.1 p.2
    if m = 2 ^ 53 then ⟨neg, 2 ^ 52, e + 1⟩ else ⟨neg, m, e⟩

/-- The value of a decimal literal `digits * 10 ^ (-decimals)` of type `double`. -/
def Double.ofDecimal (digits decimals : Nat) : Double :=
  roundToDouble false digits (10 ^ decimals)

/-- The product `k * c` of an `int` and a `double`: the `int` converts exactly, the
product is rounded once. -/
def Double.mulInt (k : Int) (c : Double) : Double :=
  let p := scaleBy (k.natAbs * c.man) 1 (-c.exp)
  roundToDouble (c.neg != decide (k < 0)) p.1 p.2

/-- The conversion `int(x)`: truncation toward zero. -/
def Double.toInt (x : Double) : Int :=
  let p := scaleBy x.man 1 (-x.exp)
  let q : Int := ((p.1 / p.2 : Nat) : Int)
  if x.neg then -q else q

/-! ## The rate curve -/

/-- Source: `static int rateFromValue(int value)`. -/
def rateFromValue (value : Int) : Int :=
  if 0 ≤ value ∧ value < 250 then
    1 + (Double.mulInt value (Double.ofDecimal 124 3)).toInt
  else if value < 500 then
    32 + (Double.mulInt (value - 250) (Double.ofDecimal 384 3)).toInt
  else if value < 750 then
    128 + (Double.mulInt (value - 500) (Double.ofDecimal 1536 3)).toInt
  else
    512 + (Double.mulInt (value - 750) (Double.ofDecimal 61445 4)).toInt

/-- The piecewise formula of the specification, its constants read as exact decimals. -/
def rateCurveFormula (v : Int) : Int :=
  if v < 250 then 1 + ⌊(v : ℚ) * 0.124⌋
  else if v < 500 then 32 + ⌊((v : ℚ) - 250) * 0.384⌋
  else if v < 750 then 128 + ⌊((v : ℚ) - 500) * 1.536⌋
  else 512 + ⌊((v : ℚ) - 750) * 6.1445⌋

/-- The formula with the floors written as integer divisions. -/
def rateCurveDiv (n : Nat) : Nat :=
  if n < 250 then 1 + n * 124 / 1000
  else if n < 500 then 32 + (n - 250) * 384 / 1000
  else if n < 750 then 128 + (n - 500) * 1536 / 1000
  else 512 + (n - 750) * 61445 / 10000

/-- Boolean check that code and formula agree on every control value below `bound`. -/
def rateAgreesBelow (bound : Nat) : Bool :=
  (List.range bound).all fun n => rateFromValue (n : Int) == (rateCurveDiv n : Int)

/-! ## Data model of the torrent page -/

/-- A `QByteArray`: a sequence of byte values. -/
abbrev QByteArray := List Nat

/-- A command the page issues to a `TorrentClient`. -/
inductive Command where
  | start
  | stop
  | setPaused (paused : Bool)
  deriving DecidableEq, Repr

/-- Modelled from the spec: `TorrentClient` (`torrentclient.h` is not among the sources).
The record holds what the page hands to the client through its setters and reads back
through the getters of the engine contract (`setDestinationFolder`, `setDumpedState`,
`setDownloadedBytes`, `setUploadedBytes`, `state()`), the commands issued to it in
order, and whether `deleteLater()` was called on it. -/
structure TorrentClient where
  destinationFolder : String
  dumpedState : QByteArray
  downloadedBytes : Int
  uploadedBytes : Int
  state : Int
  commands : List Command
  deleteLater : Bool
  deriving DecidableEq, Repr

/-- The `Job` record of the page (declared in `overviewpage.h`), with the three fields the
source reads and writes: the client pointer and the two strings of the job. -/
structure Job where
  client : Nat
  torrentFileName : String
  destinationDirectory : String
  deriving DecidableEq, Repr

/-- One entry of the `Torrents` array of the persisted settings. -/
structure TorrentRecord where
  sourceFileName : String
  destinationFolder : String
  uploadedBytes : Int
  downloadedBytes : Int
  resumeState : QByteArray
  deriving DecidableEq, Repr

/-- The `QSettings("QtProject", "Torrent")` store. A key that is absent is `none`;
`extra` are keys the page never writes. -/
structure Settings where
  lastDirectory : Option String
  uploadLimit : Option Int
  downloadLimit : Option Int
  torrents : List TorrentRecord
  extra : List (String × String)
  deriving DecidableEq, Repr

/-- The fields of `OverviewPage` used by the torrent code, the heap of `TorrentClient`
objects, the persisted settings and the two budgets of `RateController::instance()`.
`torrentView` lists the pointers of the view's top-level items in row order;
`saveTimers` counts the `QTimer::singleShot(..., SLOT(saveSettings()))` calls and
`syncs` the `settings.sync()` calls made so far. -/
structure OverviewPage where
  jobs : List Job
  torrentView : List Nat
  saveChanges : Bool
  lastDirectory : String
  uploadLimitSlider : Int
  downloadLimitSlider : Int
  quitDialog : Bool
  jobsStopped : Int
  jobsToStop : Int
  clients : List (Nat × TorrentClient)
  nextPtr : Nat
  settings : Settings
  rateUploadLimit : Int
  rateDownloadLimit : Int
  saveTimers : Nat
  syncs : Nat
  deriving DecidableEq, Repr

/-- What the page obtains from the engine when it creates a client: the object that
`new TorrentClient(this)` yields and the answer of `setTorrent(fileName)`. -/
structure Engine where
  setTorrent : String → Bool
  newClient : TorrentClient

/-! ## Qt containers -/

/-- Source: `QList::at(i)` and `QList::operator[](i)` read access; out of range is `none`. -/
def QList.at {α : Type} (l : List α) (i : Int) : Option α :=
  if 0 ≤ i then l[i.toNat]? else none

/-- Source: the assignment `list[i] = v`; out of range is `none`. -/
def QList.assign {α : Type} (l : List α) (i : Int) (v : α) : Option (List α) :=
  if 0 ≤ i ∧ i < l.length then some (l.set i.toNat v) else none

/-- Source: `QList::removeAt(i)`, which ignores an index out of range. -/
def QList.removeAt {α : Type} (l : List α) (i : Int) : List α :=
  if 0 ≤ i ∧ i < l.length then l.eraseIdx i.toNat else l

/-- Source: `QTreeWidget::indexOfTopLevelItem(item)`; `-1` for a null or foreign item. -/
def indexOfTopLevelItem (view : List Nat) (item : Option Nat) : Int :=
  match item with
  | none => -1
  | some p => if p ∈ view then (view.indexOf p : Int) else -1

/-- Source: `QTreeWidget::takeTopLevelItem(index)`: the item removed (null when out of
range) and the remaining rows. -/
def takeTopLevelItem (view : List Nat) (index : Int) : Option Nat × List Nat :=
  (QList.at view index, QList.removeAt view index)

/-- Source: `QTreeWidget::insertTopLevelItem(index, item)`: nothing is inserted for a
null item or an index outside `0 .. count`. -/
def insertTopLevelItem (view : List Nat) (index : Int) (item : Option Nat) : List Nat :=
  match item with
  | none => view
  | some p => if 0 ≤ index ∧ index ≤ view.length then view.insertIdx index.toNat p else view

/-- The client object behind a pointer, if it is live. -/
def OverviewPage.client? (s : OverviewPage) (p : Nat) : Option TorrentClient :=
  s.clients.lookup p

/-- Replace the object behind pointer `p`. -/
def setClient (cs : List (Nat × TorrentClient)) (p : Nat) (c : TorrentClient) :
    List (Nat × TorrentClient) :=
  cs.map fun e => if e.1 = p then (p, c) else e

/-- Apply a method that mutates the client behind `p`; `none` if `p` is dangling. -/
def OverviewPage.withClient (s : OverviewPage) (p : Nat) (f : TorrentClient → TorrentClient) :
    Option OverviewPage :=
  match s.client? p with
  | none => none
  | some c => some { s with clients := setClient s.clients p (f c) }

/-! ## Rate limits -/

/-- Source: `OverviewPage::setUploadLimit(int value)`. -/
def setUploadLimit (s : OverviewPage) (value : Int) : OverviewPage :=
  let rate := rateFromValue value
  { s with rateUploadLimit := rate * 1024 }

/-- Source: `OverviewPage::setDownloadLimit(int value)`. -/
def setDownloadLimit (s : OverviewPage) (value : Int) : OverviewPage :=
  let rate := rateFromValue value
  { s with rateDownloadLimit := rate * 1024 }

/-- The bound applied by `QSlider::setValue` on a slider of range `0 .. 1000`: the value is bounded to the
range, and `valueChanged` fires only when the bounded value differs from the old one. -/
def sliderBound (value : Int) : Int := max 0 (min value 1000)

/-- Source: `uploadLimitSlider->setValue(value)` with its `valueChanged` connection to
`setUploadLimit`. -/
def uploadLimitSliderSetValue (s : OverviewPage) (value : Int) : OverviewPage :=
  let v := sliderBound value
  if s.uploadLimitSlider = v then s
  else setUploadLimit { s with uploadLimitSlider := v } v

/-- Source: `downloadLimitSlider->setValue(value)` with its `valueChanged` connection to
`setDownloadLimit`. -/
def downloadLimitSliderSetValue (s : OverviewPage) (value : Int) : OverviewPage :=
  let v := sliderBound value
  if s.downloadLimitSlider = v then s
  else setDownloadLimit { s with downloadLimitSlider := v } v

/-! ## Registry operations -/

/-- The loop of `rowOfClient`, `row` being the counter. -/
def rowOfClientFrom : List Job → Nat → Int → Int
  | [], _, _ => -1
  | job :: rest, client, row =>
    if job.client = client then row else rowOfClientFrom rest client (row + 1)

/-- Source: `OverviewPage::rowOfClient(TorrentClient *client)`. -/
def rowOfClient (s : OverviewPage) (client : Nat) : Int :=
  rowOfClientFrom s.jobs client 0

/-- Source: `OverviewPage::setActionsEnabled()`. `selected` is the first item of
`torrentView->selectedItems()`, if any. The function reads `jobs.at(row)` and the state
of that job's client to enable or disable the toolbar actions; the actions are not part
of the model, so a call that reads inside the range leaves the state as it is. -/
def setActionsEnabled (s : OverviewPage) (selected : Option Nat) : Option OverviewPage :=
  match selected with
  | none => some s
  | some item =>
    match QList.at s.jobs (indexOfTopLevelItem s.torrentView (some item)) with
    | none => none
    | some job =>
      match s.client? job.client with
      | none => none
      | some _ => some s

/-- The duplicate check at the head of `addTorrent`. -/
def alreadyDownloading (jobs : List Job) (fileName destinationFolder : String) : Bool :=
  jobs.any fun job =>
    job.torrentFileName == fileName && job.destinationDirectory == destinationFolder

/-- Source: `OverviewPage::addTorrent(const QString &fileName, const QString
&destinationFolder, const QByteArray &resumeState)`. The client is allocated at
`nextPtr` and the view item at `nextPtr + 1`; a client rejected by `setTorrent` is
deleted again, which leaves the heap as it was. -/
def addTorrent (s : OverviewPage) (engine : Engine) (fileName destinationFolder : String)
    (resumeState : QByteArray) : Bool × OverviewPage :=
  if alreadyDownloading s.jobs fileName destinationFolder then (false, s)
  else if !engine.setTorrent fileName then (false, s)
  else
    let client := s.nextPtr
    let object : TorrentClient :=
      { engine.newClient with destinationFolder := destinationFolder, dumpedState := resumeState }
    let job : Job :=
      { client := client, torrentFileName := fileName, destinationDirectory := destinationFolder }
    let item := s.nextPtr + 1
    let s1 : OverviewPage :=
      { s with
        clients := s.clients ++ [(client, object)]
        nextPtr := s.nextPtr + 2
        jobs := s.jobs ++ [job]
        torrentView := s.torrentView ++ [item] }
    let s2 : OverviewPage :=
      if !s1.saveChanges then { s1 with saveChanges := true, saveTimers := s1.saveTimers + 1 }
      else s1
    let started : TorrentClient := { object with commands := object.commands ++ [Command.start] }
    (true, { s2 with clients := setClient s2.clients client started })

/-- The record `saveSettings` writes for one job; `none` if its client is dangling. -/
def recordOfJob (s : OverviewPage) (job : Job) : Option TorrentRecord :=
  match s.client? job.client with
  | none => none
  | some c =>
    some { sourceFileName := job.torrentFileName
           destinationFolder := job.destinationDirectory
           uploadedBytes := c.uploadedBytes
           downloadedBytes := c.downloadedBytes
           resumeState := c.dumpedState }

/-- The loop of `saveSettings` over `jobs`: one record per job, in order; `none` if a
client is dangling. -/
def recordsOfJobs (s : OverviewPage) : List Job → Option (List TorrentRecord)
  | [] => some []
  | job :: rest =>
    match recordOfJob s job with
    | none => none
    | some r =>
      match recordsOfJobs s rest with
      | none => none
      | some rs => some (r :: rs)

/-- Source: `OverviewPage::saveSettings()`. -/
def saveSettings (s : OverviewPage) : Option OverviewPage :=
  if !s.saveChanges then some s
  else
    match recordsOfJobs s s.jobs with
    | none => none
    | some records =>
      some { s with
             saveChanges := false
             settings :=
               { lastDirectory := some s.lastDirectory
                 uploadLimit := some s.uploadLimitSlider
                 downloadLimit := some s.downloadLimitSlider
                 torrents := records
                 extra := [] }
             syncs := s.syncs + 1 }

/-- Source: `OverviewPage::removeTorrent()`. `currentItem` is `torrentView->currentItem()`
and `selected` the selection that `setActionsEnabled` finds after the row is gone. -/
def removeTorrent (s : OverviewPage) (currentItem selected : Option Nat) : Option OverviewPage :=
  let row := indexOfTopLevelItem s.torrentView currentItem
  match QList.at s.jobs row with
  | none => none
  | some job =>
    match s.withClient job.client fun c => { c with commands := c.commands ++ [Command.stop] } with
    | none => none
    | some s1 =>
      let s2 : OverviewPage :=
        { s1 with
          torrentView := (takeTopLevelItem s1.torrentView row).2
          jobs := QList.removeAt s1.jobs row }
      match setActionsEnabled s2 selected with
      | none => none
      | some s3 => saveSettings { s3 with saveChanges := true }

/-- Source: `OverviewPage::torrentStopped()`; `sender` is the client that emitted
`stopped()`. `quitDialog` is the pointer test `if (quitDialog)`: when `++jobsStopped`
reaches `jobsToStop` the source calls `quitDialog->close()`, which closes the dialog
window and leaves the pointer set, so `quitDialog` keeps its value. -/
def torrentStopped (s : OverviewPage) (sender : Nat) : Option OverviewPage :=
  match s.withClient sender fun c => { c with deleteLater := true } with
  | none => none
  | some s1 =>
    if s1.quitDialog then some { s1 with jobsStopped := s1.jobsStopped + 1 }
    else some s1

/-- Source: `OverviewPage::torrentError(TorrentClient::Error)`; `sender` is the client
that emitted `error`. This is the handler when no other handler runs while its modal
`QMessageBox::warning` is open: the box stands between `jobs.removeAt(row)` and
`takeTopLevelItem(row)`, and `torrentErrorNested` is the handler with the handlers that
the nested event loop of the box runs in between. -/
def torrentError (s : OverviewPage) (sender : Nat) : Option OverviewPage :=
  let row := rowOfClient s sender
  match QList.at s.jobs row with
  | none => none
  | some _ =>
    let s1 : OverviewPage := { s with jobs := QList.removeAt s.jobs row }
    let s2 : OverviewPage := { s1 with torrentView := (takeTopLevelItem s1.torrentView row).2 }
    s2.withClient sender fun c => { c with deleteLater := true }

/-- Source: `OverviewPage::moveTorrentUp()`. `currentItem` is
`torrentView->currentItem()`, `selected` the selection seen by `setActionsEnabled`. -/
def moveTorrentUp (s : OverviewPage) (currentItem selected : Option Nat) : Option OverviewPage :=
  let row := indexOfTopLevelItem s.torrentView currentItem
  if row = 0 then some s
  else
    match QList.at s.jobs (row - 1) with
    | none => none
    | some tmp =>
      match QList.at s.jobs row with
      | none => none
      | some job =>
        match QList.assign s.jobs (row - 1) job with
        | none => none
        | some jobs1 =>
          match QList.assign jobs1 row tmp with
          | none => none
          | some jobs2 =>
            let taken := takeTopLevelItem s.torrentView (row - 1)
            setActionsEnabled
              { s with jobs := jobs2, torrentView := insertTopLevelItem taken.2 row taken.1 }
              selected

/-- Source: `OverviewPage::moveTorrentDown()`. -/
def moveTorrentDown (s : OverviewPage) (currentItem selected : Option Nat) : Option OverviewPage :=
  let row := indexOfTopLevelItem s.torrentView currentItem
  if row = (s.jobs.length : Int) - 1 then some s
  else
    match QList.at s.jobs (row + 1) with
    | none => none
    | some tmp =>
      match QList.at s.jobs row with
      | none => none
      | some job =>
        match QList.assign s.jobs (row + 1) job with
        | none => none
        | some jobs1 =>
          match QList.assign jobs1 row tmp with
          | none => none
          | some jobs2 =>
            let taken := takeTopLevelItem s.torrentView (row + 1)
            setActionsEnabled
              { s with jobs := jobs2, torrentView := insertTopLevelItem taken.2 row taken.1 }
              selected

/-- The body of the resume loop of `loadSettings` for one array entry: on a successful
`addTorrent` the byte counters are set on `jobs.last().client`. -/
def loadTorrent (s : OverviewPage) (engine : Engine) (r : TorrentRecord) : Option OverviewPage :=
  let res := addTorrent s engine r.sourceFileName r.destinationFolder r.resumeState
  if res.1 then
    match res.2.jobs.getLast? with
    | none => none
    | some job =>
      res.2.withClient job.client fun c =>
        { c with downloadedBytes := r.downloadedBytes, uploadedBytes := r.uploadedBytes }
  else some res.2

/-- The resume loop of `loadSettings` over the entries of the `Torrents` array. -/
def loadTorrents (engine : Engine) : List TorrentRecord → OverviewPage → Option OverviewPage
  | [], s => some s
  | r :: rest, s =>
    match loadTorrent s engine r with
    | none => none
    | some s1 => loadTorrents engine rest s1

/-- Source: `OverviewPage::loadSettings()`. `currentPath` is `QDir::currentPath()`; an
absent key reads as the empty string or as `0`. -/
def loadSettings (s : OverviewPage) (engine : Engine) (currentPath : String) :
    Option OverviewPage :=
  let lastDirectory := s.settings.lastDirectory.getD ""
  let s1 : OverviewPage :=
    { s with lastDirectory := if lastDirectory.isEmpty then currentPath else lastDirectory }
  let up := s.settings.uploadLimit.getD 0
  let down := s.settings.downloadLimit.getD 0
  let s2 := uploadLimitSliderSetValue s1 (if up ≠ 0 then up else 170)
  let s3 := downloadLimitSliderSetValue s2 (if down ≠ 0 then down else 550)
  loadTorrents engine s.settings.torrents s3

/-! ## Reachable states -/

/-- The calls that change the registry. -/
inductive Event where
  | addTorrent (engine : Engine) (fileName destinationFolder : String) (resumeState : QByteArray)
  | removeTorrent (currentItem selected : Option Nat)
  | torrentError (sender : Nat)
  | moveTorrentUp (currentItem selected : Option Nat)
  | moveTorrentDown (currentItem selected : Option Nat)
  | loadSettings (engine : Engine) (currentPath : String)

/-- The state after a completed call, `none` if the call reads a list out of range or a
dangling client. -/
def Event.apply (s : OverviewPage) : Event → Option OverviewPage
  | .addTorrent engine fileName destinationFolder resumeState =>
    some (SeedPay.addTorrent s engine fileName destinationFolder resumeState).2
  | .removeTorrent currentItem selected => SeedPay.removeTorrent s currentItem selected
  | .torrentError sender => SeedPay.torrentError s sender
  | .moveTorrentUp currentItem selected => SeedPay.moveTorrentUp s currentItem selected
  | .moveTorrentDown currentItem selected => SeedPay.moveTorrentDown s currentItem selected
  | .loadSettings engine currentPath => SeedPay.loadSettings s engine currentPath

/-- A page as the constructor leaves it: no job, no row, no client object. -/
def Initial (s : OverviewPage) : Prop :=
  s.jobs = [] ∧ s.torrentView = [] ∧ s.clients = []

/-- States reachable from an initial page by completed calls, each call running with no
other handler nested in it. -/
inductive Reachable : OverviewPage → Prop where
  | init (s : OverviewPage) (h : Initial s) : Reachable s
  | step (s t : OverviewPage) (e : Event) (hs : Reachable s) (h : e.apply s = some t) :
      Reachable t

/-- The key under which `addTorrent` looks for a duplicate. -/
def Job.key (job : Job) : String × String :=
  (job.torrentFileName, job.destinationDirectory)

/-- Heap and view consistency of a page: rows and jobs pair up, item pointers and the
client pointers of the jobs are pairwise distinct, every job's client is live, and the
allocator is ahead of every pointer in use. -/
def WellFormed (s : OverviewPage) : Prop :=
  s.torrentView.length = s.jobs.length ∧
  s.torrentView.Nodup ∧
  (s.jobs.map Job.client).Nodup ∧
  (s.clients.map Prod.fst).Nodup ∧
  (∀ job ∈ s.jobs, job.client ∈ s.clients.map Prod.fst) ∧
  (∀ p ∈ s.torrentView, p < s.nextPtr) ∧
  (∀ p ∈ s.clients.map Prod.fst, p < s.nextPtr)

/-! ## Exchanging neighbours -/

/-- Exchange the entries at positions `k` and `k + 1`. -/
def swapAdj {α : Type} : List α → Nat → List α
  | a :: b :: t, 0 => b :: a :: t
  | a :: t, k + 1 => a :: swapAdj t k
  | l, _ => l

/-- The invariant of reachable pages: heap and view are consistent and no two jobs have
the same `(torrentFileName, destinationDirectory)` pair. -/
def Inv (s : OverviewPage) : Prop :=
  WellFormed s ∧ (s.jobs.map Job.key).Nodup

/-- The selection handed to `setActionsEnabled` is empty or an item of the view. -/
def SelectionOk (s : OverviewPage) (selected : Option Nat) : Prop :=
  ∀ item, selected = some item → item ∈ s.torrentView

/-! ## Sample pages -/

/-- Decidability of `WellFormed`. -/
instance WellFormed.decidable (s : OverviewPage) : Decidable (WellFormed s) := by
  unfold WellFormed
  infer_instance

/-- A client as the sample engines create it. -/
def sampleClient : TorrentClient :=
  { destinationFolder := "", dumpedState := [], downloadedBytes := 0, uploadedBytes := 0,
    state := 0, commands := [], deleteLater := false }

/-- An engine that accepts every torrent file. -/
def acceptingEngine : Engine := { setTorrent := fun _ => true, newClient := sampleClient }

/-- An engine that accepts no torrent file. -/
def rejectingEngine : Engine := { setTorrent := fun _ => false, newClient := sampleClient }

/-- A page without jobs. -/
def emptyPage : OverviewPage :=
  { jobs := [], torrentView := [], saveChanges := false, lastDirectory := "",
    uploadLimitSlider := 0, downloadLimitSlider := 0, quitDialog := false, jobsStopped := 0,
    jobsToStop := 0, clients := [], nextPtr := 0,
    settings :=
      { lastDirectory := none, uploadLimit := none, downloadLimit := none, torrents := [],
        extra := [] },
    rateUploadLimit := 0, rateDownloadLimit := 0, saveTimers := 0, syncs := 0 }

/-- The page after adding `a.torrent`. -/
def pageA : OverviewPage := (addTorrent emptyPage acceptingEngine "a.torrent" "/dl" []).2

/-- The page after adding `a.torrent` and `b.torrent`: jobs `[A, B]`, items `[1, 3]`. -/
def pageAB : OverviewPage := (addTorrent pageA acceptingEngine "b.torrent" "/dl" []).2

/-- The page after adding a third torrent: jobs `[A, B, C]`, items `[1, 3, 5]`. -/
def pageABC : OverviewPage := (addTorrent pageAB acceptingEngine "c.torrent" "/dl" []).2

/-- The page with jobs `[B, A]` and items `[3, 1]`: `pageAB` after moving `B` up. -/
def pageBA : OverviewPage :=
  { pageAB with
    jobs := [⟨2, "b.torrent", "/dl"⟩, ⟨0, "a.torrent", "/dl"⟩], torrentView := [3, 1] }

/-! ## Pause, rate samples and the toolbar actions -/

/-- Source: `OverviewPage::pauseTorrent()`. `Paused` is the value of the enumerator
`TorrentClient::Paused`, which `torrentclient.h` (not among the sources) declares. -/
def pauseTorrent (Paused : Int) (s : OverviewPage) (currentItem selected : Option Nat) :
    Option OverviewPage :=
  let row := indexOfTopLevelItem s.torrentView currentItem
  match QList.at s.jobs row with
  | none => none
  | some job =>
    match s.withClient job.client fun c =>
        { c with commands := c.commands ++ [Command.setPaused (decide (c.state ≠ Paused))] } with
    | none => none
    | some s1 => setActionsEnabled s1 selected

/-- The enabled state that `setActionsEnabled` gives to the four toolbar actions. -/
structure ActionFlags where
  removeTorrentAction : Bool
  pauseTorrentAction : Bool
  upActionTool : Bool
  downActionTool : Bool
  deriving DecidableEq, Repr

/-- Source: the `setEnabled` calls of `OverviewPage::setActionsEnabled()`. `selected` is
the first item of `torrentView->selectedItems()`, if any; `Paused` and `Preparing` are
the values of the enumerators `TorrentClient::Paused` and `TorrentClient::Preparing`.
The result is `none` when `jobs.at` reads out of range or the client is dangling. -/
def actionFlags (Paused Preparing : Int) (s : OverviewPage) (selected : Option Nat) :
    Option ActionFlags :=
  match selected with
  | none =>
    some { removeTorrentAction := false, pauseTorrentAction := false, upActionTool := false,
           downActionTool := false }
  | some item =>
    let row := indexOfTopLevelItem s.torrentView (some item)
    match QList.at s.jobs row with
    | none => none
    | some job =>
      match s.client? job.client with
      | none => none
      | some c =>
        let pauseEnabled := decide (c.state = Paused) || decide (Preparing < c.state)
        some { removeTorrentAction := true
               pauseTorrentAction := pauseEnabled
               upActionTool := decide (row ≠ 0)
               downActionTool := decide (row ≠ (s.jobs.length : Int) - 1) }

/-- The `if (!saveChanges)` block shared by `addTorrent`, `updateDownloadRate` and
`updateUploadRate`: set the dirty flag and arm one `saveSettings` timer. -/
def scheduleSave (s : OverviewPage) : OverviewPage :=
  if !s.saveChanges then { s with saveChanges := true, saveTimers := s.saveTimers + 1 } else s

/-- Source: `OverviewPage::updateDownloadRate(int bytesPerSecond)`; `sender` is the client
that emitted the sample. `topLevelItem(row)` is null for a row out of range, and the
`setText` call on it is then a null dereference. -/
def updateDownloadRate (s : OverviewPage) (sender : Nat) (_bytesPerSecond : Int) :
    Option OverviewPage :=
  let row := rowOfClient s sender
  match QList.at s.torrentView row with
  | none => none
  | some _ => some (scheduleSave s)

/-- Source: `OverviewPage::updateUploadRate(int bytesPerSecond)`. -/
def updateUploadRate (s : OverviewPage) (sender : Nat) (_bytesPerSecond : Int) :
    Option OverviewPage :=
  let row := rowOfClient s sender
  match QList.at s.torrentView row with
  | none => none
  | some _ => some (scheduleSave s)

/-- The value of `TorrentClient::Paused` in the samples. -/
def samplePaused : Int := 1

/-- The value of `TorrentClient::Preparing` in the samples. -/
def samplePreparing : Int := 3

/-- The page `pageAB` with the client of job `A` in state `Preparing`. -/
def pageABPreparing : OverviewPage :=
  { pageAB with
    clients := setClient pageAB.clients 0
      { sampleClient with destinationFolder := "/dl", commands := [Command.start],
                          state := samplePreparing } }

/-- The page `pageAB` with the client of job `A` in state `Paused`. -/
def pagePaused : OverviewPage :=
  { pageAB with
    clients := setClient pageAB.clients 0
      { sampleClient with destinationFolder := "/dl", commands := [Command.start],
                          state := samplePaused } }

/-- The page `pageAB` after its pending save: the dirty flag is clear and the settings
hold the jobs `[A, B]` and the slider values. -/
def pageABSaved : OverviewPage :=
  { pageAB with
    saveChanges := false
    settings :=
      { lastDirectory := some "", uploadLimit := some 0, downloadLimit := some 0,
        torrents :=
          [{ sourceFileName := "a.torrent", destinationFolder := "/dl", uploadedBytes := 0,
             downloadedBytes := 0, resumeState := [] },
           { sourceFileName := "b.torrent", destinationFolder := "/dl", uploadedBytes := 0,
             downloadedBytes := 0, resumeState := [] }],
        extra := [] }
    syncs := 1 }

/-- The record `saveSettings` writes for a page whose jobs give `records`: it holds these
three values and these entries and nothing else. -/
def recordOfPage (s : OverviewPage) (records : List TorrentRecord) : Settings :=
  { lastDirectory := some s.lastDirectory
    uploadLimit := some s.uploadLimitSlider
    downloadLimit := some s.downloadLimitSlider
    torrents := records
    extra := [] }

/-- The part of a persisted entry that the round trip compares. -/
def TorrentRecord.summary (r : TorrentRecord) : String × String × Int × Int :=
  (r.sourceFileName, r.destinationFolder, r.uploadedBytes, r.downloadedBytes)

/-- The ordered list of `(source, destination, uploadedBytes, downloadedBytes)` of the
jobs of a page, read through the clients; `none` if a client is dangling. -/
def jobSummaries (s : OverviewPage) : Option (List (String × String × Int × Int)) :=
  (recordsOfJobs s s.jobs).map (List.map TorrentRecord.summary)

/-- The key of a persisted entry for the duplicate check. -/
def TorrentRecord.key (r : TorrentRecord) : String × String :=
  (r.sourceFileName, r.destinationFolder)

/-- The page `pageBA` with upload control `300`, download control `700` and byte counters
on the client of `B`. -/
def pageLimits : OverviewPage :=
  { pageBA with
    uploadLimitSlider := 300
    downloadLimitSlider := 700
    clients := setClient pageBA.clients 2
      { sampleClient with destinationFolder := "/dl", commands := [Command.start],
                          uploadedBytes := 4096, downloadedBytes := 65536 } }

/-- The view item that `addTorrent` creates for a job: the call allocates the client at
`nextPtr` and the `QTreeWidgetItem` of the same job right after it, at `nextPtr + 1`. -/
def Job.item (job : Job) : Nat := job.client + 1

/-- Jobs and view rows in lockstep: row `i` of the view is the item created for the job
at `jobs[i]`. -/
def Lockstep (s : OverviewPage) : Prop :=
  s.torrentView = s.jobs.map Job.item

/-- A mutation event that marks the page dirty: a successful `addTorrent`, a download
rate sample or an upload rate sample. -/
inductive Mutation where
  | addTorrent (engine : Engine) (fileName destinationFolder : String) (resumeState : QByteArray)
  | downloadRate (sender : Nat) (bytesPerSecond : Int)
  | uploadRate (sender : Nat) (bytesPerSecond : Int)

/-- The page after a mutation event; `none` when `addTorrent` returns `false` (the event is
then no mutation) or when a rate handler reads out of range. -/
def Mutation.apply (s : OverviewPage) : Mutation → Option OverviewPage
  | .addTorrent engine fileName destinationFolder resumeState =>
    if (SeedPay.addTorrent s engine fileName destinationFolder resumeState).1 then
      some (SeedPay.addTorrent s engine fileName destinationFolder resumeState).2
    else none
  | .downloadRate sender bytesPerSecond => updateDownloadRate s sender bytesPerSecond
  | .uploadRate sender bytesPerSecond => updateUploadRate s sender bytesPerSecond

/-- A burst of mutation events handled one after the other, with no `saveSettings` in
between. -/
def runBurst : List Mutation → OverviewPage → Option OverviewPage
  | [], s => some s
  | m :: rest, s =>
    match m.apply s with
    | none => none
    | some t => runBurst rest t

/-- A burst on the freshly saved page `pageABSaved`: a download sample of `A`, a new
torrent `C`, an upload sample of `B`. -/
def sampleBurst : List Mutation :=
  [Mutation.downloadRate 0 2048, Mutation.addTorrent acceptingEngine "c.torrent" "/dl" [],
    Mutation.uploadRate 2 512]

/-! ## The message box of `torrentError` -/

/-- Source: `torrentError` up to its `QMessageBox::warning` (lines 809-812): the row of
the sender is looked up, `jobs.at(row)` is read for the file name and `jobs.removeAt(row)`
is done. The result is the row and the page as it is while the box is open. -/
def torrentErrorBegin (s : OverviewPage) (sender : Nat) : Option (Int × OverviewPage) :=
  let row := rowOfClient s sender
  match QList.at s.jobs row with
  | none => none
  | some _ => some (row, { s with jobs := QList.removeAt s.jobs row })

/-- Source: `torrentError` after its `QMessageBox::warning` has returned (lines 820-821):
`delete torrentView->takeTopLevelItem(row)` with the row computed before the box opened,
then `client->deleteLater()`. -/
def torrentErrorEnd (s : OverviewPage) (row : Int) (sender : Nat) : Option OverviewPage :=
  OverviewPage.withClient { s with torrentView := (takeTopLevelItem s.torrentView row).2 }
    sender fun c => { c with deleteLater := true }

/-- Source: `OverviewPage::torrentError(TorrentClient::Error)` with the nested event loop
of the modal box: `during` is what the handlers that run while the box is open do to the
page (`some` when none runs). -/
def torrentErrorNested (s : OverviewPage) (sender : Nat)
    (during : OverviewPage → Option OverviewPage) : Option OverviewPage :=
  match torrentErrorBegin s sender with
  | none => none
  | some (row, s1) =>
    match during s1 with
    | none => none
    | some s2 => torrentErrorEnd s2 row sender

end SeedPay

namespace SeedPay

/-! ## Sanity of the binary64 model -/

theorem ilog2Aux_eq_log2 (fuel n : Nat) (h : n ≤ fuel) : ilog2Aux fuel n = Nat.log2 n := by
  induction fuel generalizing n with
  | zero =>
    have hn : n = 0 := by omega
    subst hn
    rw [Nat.log2]
    simp [ilog2Aux]
  | succ fuel ih =>
    rw [Nat.log2]
    unfold ilog2Aux
    by_cases h2 : n < 2
    · rw [if_pos h2, if_neg (by omega)]
    · rw [if_neg h2, if_pos (by omega), ih (n / 2) (by omega)]

/-- The halving loop never runs out of fuel: `ilog2` is the binary logarithm. -/
theorem ilog2_eq_log2 (n : Nat) : ilog2 n = Nat.log2 n :=
  ilog2Aux_eq_log2 n n (Nat.le_refl n)

/-- The result of `roundHalfEven n d` is at distance at most one half from `n / d`. -/
theorem roundHalfEven_near (n d : Nat) (hd : 0 < d) :
    2 * (roundHalfEven n d * d) ≤ 2 * n + d ∧ 2 * n ≤ 2 * (roundHalfEven n d * d) + d := by
  have hdm := Nat.div_add_mod n d
  have hr := Nat.mod_lt n hd
  have hq : d * (n / d) = n / d * d := Nat.mul_comm _ _
  have hq1 : (n / d + 1) * d = n / d * d + d := by ring
  unfold roundHalfEven
  dsimp only
  split
  · omega
  · split
    · rw [hq1]; omega
    · split
      · omega
      · rw [hq1]; omega

/-- The four constants of `rateFromValue` as binary64 numbers. -/
theorem rate_constants :
    Double.ofDecimal 124 3 = ⟨false, 8935141660703064, -56⟩ ∧
    Double.ofDecimal 384 3 = ⟨false, 6917529027641082, -54⟩ ∧
    Double.ofDecimal 1536 3 = ⟨false, 6917529027641082, -52⟩ ∧
    Double.ofDecimal 61445 4 = ⟨false, 6918091977594503, -50⟩ := by
  refine ⟨?_, ?_, ?_, ?_⟩ <;> decide!

/-! ## The rate curve agrees with the formula -/

set_option maxRecDepth 1000000 in
theorem rateAgreesBelow_1001 : rateAgreesBelow 1001 = true := by decide!

theorem floor_mul_decimal (m a b : Nat) (q : ℚ) (hq : q = (a : ℚ) / (b : ℚ)) :
    ⌊(m : ℚ) * q⌋ = ((m * a / b : Nat) : Int) := by
  have h : (m : ℚ) * q = ((m * a : Nat) : ℚ) / ((b : Nat) : ℚ) := by
    rw [hq]; push_cast; ring
  rw [h, Rat.floor_natCast_div_natCast]
  norm_cast

theorem rateCurveDiv_eq_formula (n : Nat) :
    ((rateCurveDiv n : Nat) : Int) = rateCurveFormula (n : Int) := by
  unfold rateCurveDiv rateCurveFormula
  by_cases h1 : n < 250
  · have h1' : (n : Int) < 250 := by omega
    rw [if_pos h1, if_pos h1']
    have := floor_mul_decimal n 124 1000 0.124 (by norm_num)
    simp only [Int.cast_natCast]
    rw [this]; push_cast; rfl
  · have h1' : ¬ (n : Int) < 250 := by omega
    rw [if_neg h1, if_neg h1']
    by_cases h2 : n < 500
    · have h2' : (n : Int) < 500 := by omega
      rw [if_pos h2, if_pos h2']
      have e : ((n : Int) : ℚ) - 250 = ((n - 250 : Nat) : ℚ) := by
        rw [Nat.cast_sub (by omega)]; simp
      rw [e, floor_mul_decimal (n - 250) 384 1000 0.384 (by norm_num)]
      push_cast; rfl
    · have h2' : ¬ (n : Int) < 500 := by omega
      rw [if_neg h2, if_neg h2']
      by_cases h3 : n < 750
      · have h3' : (n : Int) < 750 := by omega
        rw [if_pos h3, if_pos h3']
        have e : ((n : Int) : ℚ) - 500 = ((n - 500 : Nat) : ℚ) := by
          rw [Nat.cast_sub (by omega)]; simp
        rw [e, floor_mul_decimal (n - 500) 1536 1000 1.536 (by norm_num)]
        push_cast; rfl
      · have h3' : ¬ (n : Int) < 750 := by omega
        rw [if_neg h3, if_neg h3']
        have e : ((n : Int) : ℚ) - 750 = ((n - 750 : Nat) : ℚ) := by
          rw [Nat.cast_sub (by omega)]; simp
        rw [e, floor_mul_decimal (n - 750) 61445 10000 6.1445 (by norm_num)]
        push_cast; rfl

theorem rateFromValue_eq_div (n : Nat) (h : n < 1001) :
    rateFromValue (n : Int) = ((rateCurveDiv n : Nat) : Int) := by
  have hall := rateAgreesBelow_1001
  unfold rateAgreesBelow at hall
  rw [List.all_eq_true] at hall
  have := hall n (List.mem_range.2 h)
  simpa using this

/-- C1: on the control range `0 .. 1000` the code's `rateFromValue` equals the
piecewise formula with its constants read as exact decimals, and the eight boundary
values are `1, 31, 32, 127, 128, 510, 512, 2048`. -/
theorem rateFromValue_eq_formula (v : Int) (h0 : 0 ≤ v) (h1 : v ≤ 1000) :
    rateFromValue v = rateCurveFormula v ∧
    (rateFromValue 0 = 1 ∧ rateFromValue 249 = 31 ∧ rateFromValue 250 = 32 ∧
      rateFromValue 499 = 127 ∧ rateFromValue 500 = 128 ∧ rateFromValue 749 = 510 ∧
      rateFromValue 750 = 512 ∧ rateFromValue 1000 = 2048) := by
  refine ⟨?_, ?_⟩
  · obtain ⟨n, rfl⟩ := Int.eq_ofNat_of_zero_le h0
    rw [rateFromValue_eq_div n (by omega), rateCurveDiv_eq_formula]
  · refine ⟨?_, ?_, ?_, ?_, ?_, ?_, ?_, ?_⟩ <;> decide!

theorem rateFromValue_eq_formula_witness :
    (0 : Int) ≤ 375 ∧ (375 : Int) ≤ 1000 ∧ rateFromValue 375 = rateCurveFormula 375 :=
  ⟨by decide, by decide, (rateFromValue_eq_formula 375 (by decide) (by decide)).1⟩

/-! ## Lists: exchanging neighbours -/

theorem swapAdj_length {α : Type} (l : List α) (k : Nat) : (swapAdj l k).length = l.length := by
  induction l generalizing k with
  | nil => cases k <;> simp [swapAdj]
  | cons a t ih =>
    cases k with
    | zero => cases t <;> simp [swapAdj]
    | succ k => simp [swapAdj, ih]

theorem swapAdj_perm {α : Type} (l : List α) (k : Nat) : (swapAdj l k).Perm l := by
  induction l generalizing k with
  | nil => cases k <;> simp [swapAdj]
  | cons a t ih =>
    cases k with
    | zero =>
      cases t with
      | nil => simp [swapAdj]
      | cons b t => simpa [swapAdj] using List.Perm.swap a b t
    | succ k => simpa [swapAdj] using ih k

theorem swapAdj_swapAdj {α : Type} (l : List α) (k : Nat) : swapAdj (swapAdj l k) k = l := by
  induction l generalizing k with
  | nil => cases k <;> simp [swapAdj]
  | cons a t ih =>
    cases k with
    | zero => cases t <;> simp [swapAdj]
    | succ k => simp [swapAdj, ih]

theorem set_set_eq_swapAdj {α : Type} (l : List α) (k : Nat) (x y : α)
    (hx : l[k]? = some x) (hy : l[k + 1]? = some y) :
    (l.set k y).set (k + 1) x = swapAdj l k := by
  induction l generalizing k with
  | nil => simp at hx
  | cons a t ih =>
    cases k with
    | zero =>
      cases t with
      | nil => simp at hy
      | cons b t =>
        simp at hx hy
        simp [swapAdj, hx, hy]
    | succ k =>
      simp at hx hy
      simp [swapAdj, ih k hx hy]

theorem set_succ_set_eq_swapAdj {α : Type} (l : List α) (k : Nat) (x y : α)
    (hx : l[k]? = some x) (hy : l[k + 1]? = some y) :
    (l.set (k + 1) x).set k y = swapAdj l k := by
  rw [List.set_comm x y l (by omega)]
  exact set_set_eq_swapAdj l k x y hx hy

theorem eraseIdx_insertIdx_succ {α : Type} (l : List α) (k : Nat) (x : α)
    (hx : l[k]? = some x) (hk : k + 1 < l.length) :
    (l.eraseIdx k).insertIdx (k + 1) x = swapAdj l k := by
  induction l generalizing k with
  | nil => simp at hx
  | cons a t ih =>
    cases k with
    | zero =>
      cases t with
      | nil => simp at hk
      | cons b t =>
        simp at hx
        simp [swapAdj, hx]
    | succ k =>
      simp at hx hk
      simp [swapAdj, ih k hx hk]

theorem eraseIdx_succ_insertIdx {α : Type} (l : List α) (k : Nat) (y : α)
    (hy : l[k + 1]? = some y) :
    (l.eraseIdx (k + 1)).insertIdx k y = swapAdj l k := by
  induction l generalizing k with
  | nil => simp at hy
  | cons a t ih =>
    cases k with
    | zero =>
      cases t with
      | nil => simp at hy
      | cons b t =>
        simp at hy
        simp [swapAdj, hy]
    | succ k =>
      simp at hy
      simp [swapAdj, ih k hy]

theorem swapAdj_getElem?_left {α : Type} (l : List α) (k : Nat) (hk : k + 1 < l.length) :
    (swapAdj l k)[k]? = l[k + 1]? := by
  induction l generalizing k with
  | nil => simp at hk
  | cons a t ih =>
    cases k with
    | zero => cases t <;> simp [swapAdj] at hk ⊢
    | succ k =>
      simp at hk
      simp [swapAdj, ih k hk]

theorem swapAdj_getElem?_right {α : Type} (l : List α) (k : Nat) (hk : k + 1 < l.length) :
    (swapAdj l k)[k + 1]? = l[k]? := by
  induction l generalizing k with
  | nil => simp at hk
  | cons a t ih =>
    cases k with
    | zero => cases t <;> simp [swapAdj] at hk ⊢
    | succ k =>
      simp at hk
      simp [swapAdj, ih k hk]

theorem swapAdj_getElem?_other {α : Type} (l : List α) (k i : Nat) (h1 : i ≠ k)
    (h2 : i ≠ k + 1) : (swapAdj l k)[i]? = l[i]? := by
  induction l generalizing k i with
  | nil => cases k <;> simp [swapAdj]
  | cons a t ih =>
    cases k with
    | zero =>
      cases t with
      | nil => simp [swapAdj]
      | cons b t =>
        match i, h1, h2 with
        | i + 2, _, _ => simp [swapAdj]
    | succ k =>
      cases i with
      | zero => simp [swapAdj]
      | succ i => simpa [swapAdj] using ih k i (by omega) (by omega)

/-! ## Qt containers: basic facts -/

theorem QList.at_natCast {α : Type} (l : List α) (k : Nat) : QList.at l (k : Int) = l[k]? := by
  simp [QList.at]

theorem QList.at_eq_some {α : Type} {l : List α} {i : Int} {x : α} (h : QList.at l i = some x) :
    ∃ k : Nat, i = (k : Int) ∧ k < l.length ∧ l[k]? = some x := by
  unfold QList.at at h
  split at h
  · rename_i hi
    refine ⟨i.toNat, (Int.toNat_of_nonneg hi).symm, ?_, h⟩
    exact (List.getElem?_eq_some_iff.1 h).1
  · cases h

theorem QList.assign_natCast {α : Type} (l : List α) (k : Nat) (v : α) (hk : k < l.length) :
    QList.assign l (k : Int) v = some (l.set k v) := by
  simp [QList.assign, hk]

theorem QList.removeAt_natCast {α : Type} (l : List α) (k : Nat) :
    QList.removeAt l (k : Int) = l.eraseIdx k := by
  unfold QList.removeAt
  split
  · simp
  · rename_i h
    have : l.length ≤ k := by
      by_contra hc
      exact h ⟨by omega, by omega⟩
    simp [List.eraseIdx_of_length_le this]

theorem indexOfTopLevelItem_eq_natCast {view : List Nat} {cur : Option Nat} {k : Nat}
    (h : indexOfTopLevelItem view cur = (k : Int)) :
    ∃ p, cur = some p ∧ p ∈ view ∧ view.indexOf p = k ∧ k < view.length ∧ view[k]? = some p := by
  unfold indexOfTopLevelItem at h
  cases cur with
  | none =>
    have h' : (-1 : Int) = k := h
    omega
  | some p =>
    simp only at h
    split at h
    · rename_i hp
      have hk : view.indexOf p = k := by exact_mod_cast h
      refine ⟨p, rfl, hp, hk, ?_, ?_⟩
      · rw [← hk]; exact List.indexOf_lt_length.2 hp
      · rw [← hk]; exact List.getElem?_indexOf hp
    · omega

theorem indexOfTopLevelItem_of_indexOf {view : List Nat} {p : Nat} (hp : p ∈ view) :
    indexOfTopLevelItem view (some p) = (view.indexOf p : Int) := by
  simp [indexOfTopLevelItem, hp]

theorem indexOfTopLevelItem_range (view : List Nat) (cur : Option Nat) :
    -1 ≤ indexOfTopLevelItem view cur ∧ indexOfTopLevelItem view cur < view.length := by
  unfold indexOfTopLevelItem
  cases cur with
  | none => simp; omega
  | some p =>
    simp only
    split
    · rename_i hp
      have := List.indexOf_lt_length.2 hp
      omega
    · omega

/-! ## The heap of clients -/

theorem setClient_keys (cs : List (Nat × TorrentClient)) (p : Nat) (c : TorrentClient) :
    (setClient cs p c).map Prod.fst = cs.map Prod.fst := by
  unfold setClient
  rw [List.map_map]
  apply List.map_congr_left
  intro e _
  by_cases h : e.1 = p <;> simp [h]

theorem lookup_isSome_of_mem (cs : List (Nat × TorrentClient)) (p : Nat)
    (h : p ∈ cs.map Prod.fst) : ∃ c, cs.lookup p = some c := by
  induction cs with
  | nil => simp at h
  | cons e t ih =>
    obtain ⟨k, c⟩ := e
    by_cases hk : p = k
    · subst hk
      exact ⟨c, by simp [List.lookup]⟩
    · have ht : p ∈ t.map Prod.fst := by
        simp only [List.map_cons, List.mem_cons] at h
        rcases h with h | h
        · exact absurd h hk
        · exact h
      obtain ⟨c', hc'⟩ := ih ht
      refine ⟨c', ?_⟩
      have : (p == k) = false := by simpa using hk
      simp [List.lookup, this, hc']

theorem mem_of_lookup_eq_some (cs : List (Nat × TorrentClient)) (p : Nat) (c : TorrentClient)
    (h : cs.lookup p = some c) : p ∈ cs.map Prod.fst := by
  induction cs with
  | nil => simp at h
  | cons e t ih =>
    obtain ⟨k, c'⟩ := e
    by_cases hk : p = k
    · subst hk; simp
    · have hb : (p == k) = false := by simpa using hk
      simp only [List.lookup, hb] at h
      simp [ih h]

/-- What `WellFormed` looks at. -/
theorem WellFormed_congr {s t : OverviewPage} (hj : t.jobs = s.jobs)
    (hv : t.torrentView = s.torrentView)
    (hc : t.clients.map Prod.fst = s.clients.map Prod.fst) (hn : t.nextPtr = s.nextPtr)
    (h : WellFormed s) : WellFormed t := by
  unfold WellFormed at *
  rw [hj, hv, hc, hn]
  exact h

theorem Inv_congr {s t : OverviewPage} (hj : t.jobs = s.jobs) (hv : t.torrentView = s.torrentView)
    (hc : t.clients.map Prod.fst = s.clients.map Prod.fst) (hn : t.nextPtr = s.nextPtr)
    (h : Inv s) : Inv t := by
  refine ⟨WellFormed_congr hj hv hc hn h.1, ?_⟩
  rw [hj]
  exact h.2

theorem withClient_frame {s t : OverviewPage} {p : Nat} {f : TorrentClient → TorrentClient}
    (h : s.withClient p f = some t) :
    t.jobs = s.jobs ∧ t.torrentView = s.torrentView ∧
      t.clients.map Prod.fst = s.clients.map Prod.fst ∧ t.nextPtr = s.nextPtr := by
  unfold OverviewPage.withClient at h
  split at h
  · cases h
  · cases h
    simp [setClient_keys]

theorem withClient_isSome (s : OverviewPage) (p : Nat) (f : TorrentClient → TorrentClient)
    (h : p ∈ s.clients.map Prod.fst) :
    ∃ c, s.client? p = some c ∧
      s.withClient p f = some { s with clients := setClient s.clients p (f c) } := by
  obtain ⟨c, hc⟩ := lookup_isSome_of_mem s.clients p h
  refine ⟨c, hc, ?_⟩
  unfold OverviewPage.withClient
  have : s.client? p = some c := hc
  rw [this]

theorem setActionsEnabled_eq {s t : OverviewPage} {sel : Option Nat}
    (h : setActionsEnabled s sel = some t) : t = s := by
  unfold setActionsEnabled at h
  split at h
  · cases h; rfl
  · split at h
    · cases h
    · split at h
      · cases h
      · cases h; rfl

theorem setActionsEnabled_ok (s : OverviewPage) (sel : Option Nat) (hwf : WellFormed s)
    (hsel : SelectionOk s sel) : setActionsEnabled s sel = some s := by
  unfold setActionsEnabled
  cases sel with
  | none => rfl
  | some item =>
    have hmem := hsel item rfl
    have hidx := List.indexOf_lt_length.2 hmem
    simp only
    rw [indexOfTopLevelItem_of_indexOf hmem, QList.at_natCast]
    have hlt : s.torrentView.indexOf item < s.jobs.length := by rw [← hwf.1]; exact hidx
    rw [List.getElem?_eq_getElem hlt]
    simp only
    have hjob : s.jobs[s.torrentView.indexOf item] ∈ s.jobs := List.getElem_mem _
    obtain ⟨c, hc⟩ := lookup_isSome_of_mem s.clients _ (hwf.2.2.2.2.1 _ hjob)
    have : s.client? (s.jobs[s.torrentView.indexOf item]).client = some c := hc
    rw [this]

/-! ## `addTorrent` -/

theorem alreadyDownloading_iff (jobs : List Job) (f d : String) :
    alreadyDownloading jobs f d = true ↔
      ∃ job ∈ jobs, job.torrentFileName = f ∧ job.destinationDirectory = d := by
  simp [alreadyDownloading, List.any_eq_true]

theorem alreadyDownloading_iff_key (jobs : List Job) (f d : String) :
    alreadyDownloading jobs f d = true ↔ (f, d) ∈ jobs.map Job.key := by
  rw [alreadyDownloading_iff]
  simp only [List.mem_map, Job.key, Prod.mk.injEq]

theorem addTorrent_of_duplicate (s : OverviewPage) (engine : Engine) (f d : String)
    (r : QByteArray) (h : alreadyDownloading s.jobs f d = true) :
    addTorrent s engine f d r = (false, s) := by
  simp [addTorrent, h]

theorem addTorrent_of_rejected (s : OverviewPage) (engine : Engine) (f d : String)
    (r : QByteArray) (h : engine.setTorrent f = false) :
    addTorrent s engine f d r = (false, s) := by
  unfold addTorrent
  by_cases hd : alreadyDownloading s.jobs f d = true
  · simp [hd]
  · simp [hd, h]

theorem addTorrent_accepted (s : OverviewPage) (engine : Engine) (f d : String)
    (r : QByteArray) (hdup : alreadyDownloading s.jobs f d = false)
    (hacc : engine.setTorrent f = true) :
    (addTorrent s engine f d r).1 = true ∧
    (addTorrent s engine f d r).2.jobs = s.jobs ++ [⟨s.nextPtr, f, d⟩] ∧
    (addTorrent s engine f d r).2.torrentView = s.torrentView ++ [s.nextPtr + 1] ∧
    (addTorrent s engine f d r).2.clients.map Prod.fst = s.clients.map Prod.fst ++ [s.nextPtr] ∧
    (addTorrent s engine f d r).2.nextPtr = s.nextPtr + 2 ∧
    (addTorrent s engine f d r).2.saveChanges = true := by
  unfold addTorrent
  simp only [hdup, hacc, Bool.false_eq_true, if_false, Bool.not_true]
  cases hs : s.saveChanges <;> simp [hs, setClient_keys]

theorem addTorrent_inv (s : OverviewPage) (engine : Engine) (f d : String) (r : QByteArray)
    (h : Inv s) : Inv (addTorrent s engine f d r).2 := by
  by_cases hdup : alreadyDownloading s.jobs f d = true
  · rw [addTorrent_of_duplicate s engine f d r hdup]; exact h
  by_cases hacc : engine.setTorrent f = true
  swap
  · rw [addTorrent_of_rejected s engine f d r (by simpa using hacc)]; exact h
  have hdup' : alreadyDownloading s.jobs f d = false := by simpa using hdup
  obtain ⟨-, hj, hv, hc, hn, -⟩ := addTorrent_accepted s engine f d r hdup' hacc
  obtain ⟨⟨hlen, hvn, hcn, hkn, hlive, hvlt, hclt⟩, hkey⟩ := h
  have hfreshJob : s.nextPtr ∉ s.jobs.map Job.client := by
    intro hm
    obtain ⟨job, hjob, hjc⟩ := List.mem_map.1 hm
    have := hclt _ (hlive job hjob)
    omega
  refine ⟨⟨?_, ?_, ?_, ?_, ?_, ?_, ?_⟩, ?_⟩
  · rw [hj, hv]; simp [hlen]
  · rw [hv]
    refine List.Nodup.append hvn (List.nodup_singleton _) ?_
    intro a ha hb
    have := hvlt a ha
    simp at hb
    omega
  · rw [hj, List.map_append]
    refine List.Nodup.append hcn (List.nodup_singleton _) ?_
    intro a ha hb
    simp at hb
    subst hb
    exact hfreshJob ha
  · rw [hc]
    refine List.Nodup.append hkn (List.nodup_singleton _) ?_
    intro a ha hb
    have := hclt a ha
    simp at hb
    omega
  · intro job hjob
    rw [hj] at hjob
    rw [hc]
    rcases List.mem_append.1 hjob with h1 | h1
    · exact List.mem_append_left _ (hlive job h1)
    · simp at h1
      subst h1
      simp
  · intro p hp
    rw [hv] at hp
    rw [hn]
    rcases List.mem_append.1 hp with h1 | h1
    · have := hvlt p h1; omega
    · simp at h1; omega
  · intro p hp
    rw [hc] at hp
    rw [hn]
    rcases List.mem_append.1 hp with h1 | h1
    · have := hclt p h1; omega
    · simp at h1; omega
  · rw [hj, List.map_append]
    refine List.Nodup.append hkey (List.nodup_singleton _) ?_
    intro a ha hb
    simp [Job.key] at hb
    subst hb
    exact hdup ((alreadyDownloading_iff_key s.jobs f d).2 ha)

/-! ## Invariant under row removal and row exchange -/

theorem WellFormed_eraseIdx {s t : OverviewPage} (k : Nat)
    (hj : t.jobs = s.jobs.eraseIdx k) (hv : t.torrentView = s.torrentView.eraseIdx k)
    (hc : t.clients.map Prod.fst = s.clients.map Prod.fst) (hn : t.nextPtr = s.nextPtr)
    (h : WellFormed s) : WellFormed t := by
  obtain ⟨hlen, hvn, hcn, hkn, hlive, hvlt, hclt⟩ := h
  have hsubJ : (s.jobs.eraseIdx k).Sublist s.jobs := List.eraseIdx_sublist _ _
  have hsubV : (s.torrentView.eraseIdx k).Sublist s.torrentView := List.eraseIdx_sublist _ _
  refine ⟨?_, ?_, ?_, ?_, ?_, ?_, ?_⟩
  · rw [hj, hv, List.length_eraseIdx, List.length_eraseIdx, hlen]
  · rw [hv]; exact hvn.sublist hsubV
  · rw [hj]; exact hcn.sublist (hsubJ.map _)
  · rw [hc]; exact hkn
  · intro job hjob
    rw [hj] at hjob
    rw [hc]
    exact hlive job (hsubJ.subset hjob)
  · intro p hp
    rw [hv] at hp
    rw [hn]
    exact hvlt p (hsubV.subset hp)
  · rw [hc, hn]; exact hclt

theorem Inv_eraseIdx {s t : OverviewPage} (k : Nat)
    (hj : t.jobs = s.jobs.eraseIdx k) (hv : t.torrentView = s.torrentView.eraseIdx k)
    (hc : t.clients.map Prod.fst = s.clients.map Prod.fst) (hn : t.nextPtr = s.nextPtr)
    (h : Inv s) : Inv t := by
  refine ⟨WellFormed_eraseIdx k hj hv hc hn h.1, ?_⟩
  rw [hj]
  exact h.2.sublist ((List.eraseIdx_sublist _ _).map _)

theorem WellFormed_swapAdj {s t : OverviewPage} (k : Nat)
    (hj : t.jobs = swapAdj s.jobs k) (hv : t.torrentView = swapAdj s.torrentView k)
    (hc : t.clients.map Prod.fst = s.clients.map Prod.fst) (hn : t.nextPtr = s.nextPtr)
    (h : WellFormed s) : WellFormed t := by
  obtain ⟨hlen, hvn, hcn, hkn, hlive, hvlt, hclt⟩ := h
  have hpJ : (swapAdj s.jobs k).Perm s.jobs := swapAdj_perm _ _
  have hpV : (swapAdj s.torrentView k).Perm s.torrentView := swapAdj_perm _ _
  refine ⟨?_, ?_, ?_, ?_, ?_, ?_, ?_⟩
  · rw [hj, hv, swapAdj_length, swapAdj_length, hlen]
  · rw [hv]; exact hpV.nodup_iff.2 hvn
  · rw [hj]; exact (hpJ.map _).nodup_iff.2 hcn
  · rw [hc]; exact hkn
  · intro job hjob
    rw [hj] at hjob
    rw [hc]
    exact hlive job (hpJ.subset hjob)
  · intro p hp
    rw [hv] at hp
    rw [hn]
    exact hvlt p (hpV.subset hp)
  · rw [hc, hn]; exact hclt

theorem Inv_swapAdj {s t : OverviewPage} (k : Nat)
    (hj : t.jobs = swapAdj s.jobs k) (hv : t.torrentView = swapAdj s.torrentView k)
    (hc : t.clients.map Prod.fst = s.clients.map Prod.fst) (hn : t.nextPtr = s.nextPtr)
    (h : Inv s) : Inv t := by
  refine ⟨WellFormed_swapAdj k hj hv hc hn h.1, ?_⟩
  rw [hj]
  exact (((swapAdj_perm s.jobs k).map _).nodup_iff).2 h.2

/-! ## `moveTorrentUp` and `moveTorrentDown` -/

theorem moveTorrentUp_eq (s : OverviewPage) (cur sel : Option Nat) (k : Nat)
    (hrow : indexOfTopLevelItem s.torrentView cur = ((k + 1 : Nat) : Int))
    (hk : k + 1 < s.jobs.length) :
    moveTorrentUp s cur sel =
      setActionsEnabled
        { s with jobs := swapAdj s.jobs k, torrentView := swapAdj s.torrentView k } sel := by
  obtain ⟨p, -, -, -, hkv, hp⟩ := indexOfTopLevelItem_eq_natCast hrow
  have hk0 : k < s.jobs.length := by omega
  have e1 : ((k + 1 : Nat) : Int) - 1 = (k : Int) := by omega
  have hne : ¬ ((k + 1 : Nat) : Int) = 0 := by omega
  unfold moveTorrentUp
  simp only [hrow, hne, if_false, e1, QList.at_natCast, List.getElem?_eq_getElem hk0,
    List.getElem?_eq_getElem hk]
  rw [QList.assign_natCast _ _ _ hk0]
  simp only
  rw [QList.assign_natCast _ _ _ (by simpa using hk)]
  simp only [takeTopLevelItem, QList.at_natCast, QList.removeAt_natCast]
  have hkv0 : k < s.torrentView.length := by omega
  rw [set_set_eq_swapAdj s.jobs k _ _ (List.getElem?_eq_getElem hk0)
    (List.getElem?_eq_getElem hk)]
  rw [List.getElem?_eq_getElem hkv0]
  simp only [insertTopLevelItem]
  have hins : (0 : Int) ≤ ((k + 1 : Nat) : Int) ∧
      ((k + 1 : Nat) : Int) ≤ ((s.torrentView.eraseIdx k).length : Int) := by
    rw [List.length_eraseIdx]
    simp only [hkv0, if_true]
    omega
  rw [if_pos hins, Int.toNat_ofNat,
    eraseIdx_insertIdx_succ s.torrentView k _ (List.getElem?_eq_getElem hkv0) hkv]

theorem swapAdj_of_length_le {α : Type} (l : List α) (k : Nat) (h : l.length ≤ k + 1) :
    swapAdj l k = l := by
  induction l generalizing k with
  | nil => cases k <;> simp [swapAdj]
  | cons a t ih =>
    cases k with
    | zero =>
      cases t with
      | nil => simp [swapAdj]
      | cons b t => simp at h
    | succ k =>
      simp at h
      simp [swapAdj, ih k h]

theorem moveTorrentDown_view (view : List Nat) (k : Nat) :
    insertTopLevelItem (takeTopLevelItem view ((k + 1 : Nat) : Int)).2 (k : Int)
      (takeTopLevelItem view ((k + 1 : Nat) : Int)).1 = swapAdj view k := by
  simp only [takeTopLevelItem, QList.at_natCast, QList.removeAt_natCast]
  by_cases hkv : k + 1 < view.length
  · rw [List.getElem?_eq_getElem hkv]
    simp only [insertTopLevelItem]
    have hins : (0 : Int) ≤ (k : Int) ∧
        (k : Int) ≤ ((view.eraseIdx (k + 1)).length : Int) := by
      rw [List.length_eraseIdx]
      simp only [hkv, if_true]
      omega
    rw [if_pos hins, Int.toNat_ofNat,
      eraseIdx_succ_insertIdx view k _ (List.getElem?_eq_getElem hkv)]
  · rw [List.getElem?_eq_none (by omega), swapAdj_of_length_le view k (by omega)]
    simp [insertTopLevelItem, List.eraseIdx_of_length_le (show view.length ≤ k + 1 by omega)]

theorem moveTorrentDown_eq (s : OverviewPage) (cur sel : Option Nat) (k : Nat)
    (hrow : indexOfTopLevelItem s.torrentView cur = (k : Int))
    (hk : k + 1 < s.jobs.length) :
    moveTorrentDown s cur sel =
      setActionsEnabled
        { s with jobs := swapAdj s.jobs k, torrentView := swapAdj s.torrentView k } sel := by
  have hk0 : k < s.jobs.length := by omega
  have e1 : (k : Int) + 1 = ((k + 1 : Nat) : Int) := by omega
  have hne : ¬ (k : Int) = (s.jobs.length : Int) - 1 := by omega
  unfold moveTorrentDown
  simp only [hrow, hne, if_false, e1, QList.at_natCast, List.getElem?_eq_getElem hk0,
    List.getElem?_eq_getElem hk]
  rw [QList.assign_natCast _ _ _ hk]
  simp only
  rw [QList.assign_natCast _ _ _ (by simpa using hk0)]
  simp only
  rw [set_succ_set_eq_swapAdj s.jobs k _ _ (List.getElem?_eq_getElem hk0)
    (List.getElem?_eq_getElem hk), moveTorrentDown_view]

theorem moveTorrentUp_cases {s t : OverviewPage} {cur sel : Option Nat}
    (h : moveTorrentUp s cur sel = some t) :
    t = s ∨ ∃ k : Nat, k + 1 < s.jobs.length ∧
      t = { s with jobs := swapAdj s.jobs k, torrentView := swapAdj s.torrentView k } := by
  obtain ⟨hlo, -⟩ := indexOfTopLevelItem_range s.torrentView cur
  by_cases h0 : indexOfTopLevelItem s.torrentView cur = 0
  · left
    simp [moveTorrentUp, h0] at h
    exact h.symm
  · by_cases hneg : indexOfTopLevelItem s.torrentView cur = -1
    · simp [moveTorrentUp, hneg, QList.at] at h
    · obtain ⟨k, hk⟩ : ∃ k : Nat, indexOfTopLevelItem s.torrentView cur = ((k + 1 : Nat) : Int) :=
        ⟨(indexOfTopLevelItem s.torrentView cur - 1).toNat, by omega⟩
      by_cases hlen : k + 1 < s.jobs.length
      · right
        rw [moveTorrentUp_eq s cur sel k hk hlen] at h
        exact ⟨k, hlen, setActionsEnabled_eq h⟩
      · exfalso
        have hnone : QList.at s.jobs ((k + 1 : Nat) : Int) = none := by
          rw [QList.at_natCast]
          exact List.getElem?_eq_none (by omega)
        unfold moveTorrentUp at h
        simp only [hk] at h
        rw [if_neg (by omega)] at h
        split at h
        · cases h
        · rw [hnone] at h
          cases h

theorem moveTorrentDown_cases {s t : OverviewPage} {cur sel : Option Nat}
    (h : moveTorrentDown s cur sel = some t) :
    t = s ∨ ∃ k : Nat, k + 1 < s.jobs.length ∧
      t = { s with jobs := swapAdj s.jobs k, torrentView := swapAdj s.torrentView k } := by
  obtain ⟨hlo, hhi⟩ := indexOfTopLevelItem_range s.torrentView cur
  by_cases h0 : indexOfTopLevelItem s.torrentView cur = (s.jobs.length : Int) - 1
  · left
    simp [moveTorrentDown, h0] at h
    exact h.symm
  · by_cases hneg : indexOfTopLevelItem s.torrentView cur = -1
    · exfalso
      unfold moveTorrentDown at h
      simp only [hneg] at h
      rw [if_neg (by omega)] at h
      split at h
      · cases h
      · have : QList.at s.jobs (-1) = none := by simp [QList.at]
        rw [this] at h
        cases h
    · obtain ⟨k, hk⟩ : ∃ k : Nat, indexOfTopLevelItem s.torrentView cur = (k : Int) :=
        ⟨(indexOfTopLevelItem s.torrentView cur).toNat, by omega⟩
      by_cases hlen : k + 1 < s.jobs.length
      · right
        rw [moveTorrentDown_eq s cur sel k hk hlen] at h
        exact ⟨k, hlen, setActionsEnabled_eq h⟩
      · exfalso
        have hnone : QList.at s.jobs ((k : Int) + 1) = none := by
          have : (k : Int) + 1 = ((k + 1 : Nat) : Int) := by omega
          rw [this, QList.at_natCast]
          exact List.getElem?_eq_none (by omega)
        unfold moveTorrentDown at h
        simp only [hk] at h
        rw [if_neg (by omega)] at h
        rw [hnone] at h
        cases h

theorem moveTorrentUp_inv {s t : OverviewPage} {cur sel : Option Nat}
    (h : moveTorrentUp s cur sel = some t) (hs : Inv s) : Inv t := by
  rcases moveTorrentUp_cases h with rfl | ⟨k, -, rfl⟩
  · exact hs
  · exact Inv_swapAdj k rfl rfl rfl rfl hs

theorem moveTorrentDown_inv {s t : OverviewPage} {cur sel : Option Nat}
    (h : moveTorrentDown s cur sel = some t) (hs : Inv s) : Inv t := by
  rcases moveTorrentDown_cases h with rfl | ⟨k, -, rfl⟩
  · exact hs
  · exact Inv_swapAdj k rfl rfl rfl rfl hs

/-! ## `saveSettings` -/

theorem recordsOfJobs_isSome (s : OverviewPage) (jobs : List Job)
    (h : ∀ job ∈ jobs, job.client ∈ s.clients.map Prod.fst) :
    ∃ rs, recordsOfJobs s jobs = some rs := by
  induction jobs with
  | nil => exact ⟨[], rfl⟩
  | cons job rest ih =>
    obtain ⟨c, hc⟩ := lookup_isSome_of_mem s.clients job.client (h job (by simp))
    obtain ⟨rs, hrs⟩ := ih (fun j hj => h j (by simp [hj]))
    have hc' : s.client? job.client = some c := hc
    have hrec : recordsOfJobs s (job :: rest) =
        some ({ sourceFileName := job.torrentFileName
                destinationFolder := job.destinationDirectory
                uploadedBytes := c.uploadedBytes
                downloadedBytes := c.downloadedBytes
                resumeState := c.dumpedState } :: rs) := by
      simp [recordsOfJobs, recordOfJob, hc', hrs]
    exact ⟨_, hrec⟩

theorem saveSettings_frame {s t : OverviewPage} (h : saveSettings s = some t) :
    t.jobs = s.jobs ∧ t.torrentView = s.torrentView ∧ t.clients = s.clients ∧
      t.nextPtr = s.nextPtr := by
  unfold saveSettings at h
  split at h
  · cases h; simp
  · split at h
    · cases h
    · cases h; simp

theorem saveSettings_isSome (s : OverviewPage)
    (h : ∀ job ∈ s.jobs, job.client ∈ s.clients.map Prod.fst) :
    ∃ t, saveSettings s = some t := by
  obtain ⟨rs, hrs⟩ := recordsOfJobs_isSome s s.jobs h
  unfold saveSettings
  split
  · exact ⟨_, rfl⟩
  · rw [hrs]; exact ⟨_, rfl⟩

/-! ## `removeTorrent` -/

theorem removeTorrent_shape {s t : OverviewPage} {cur sel : Option Nat}
    (h : removeTorrent s cur sel = some t) :
    ∃ k : Nat, indexOfTopLevelItem s.torrentView cur = (k : Int) ∧ k < s.jobs.length ∧
      t.jobs = s.jobs.eraseIdx k ∧ t.torrentView = s.torrentView.eraseIdx k ∧
      t.clients.map Prod.fst = s.clients.map Prod.fst ∧ t.nextPtr = s.nextPtr := by
  unfold removeTorrent at h
  dsimp only at h
  split at h
  · cases h
  · rename_i job hat
    obtain ⟨k, hk, hklt, -⟩ := QList.at_eq_some hat
    split at h
    · cases h
    · rename_i s1 hw
      obtain ⟨hj1, hv1, hc1, hn1⟩ := withClient_frame hw
      split at h
      · cases h
      · rename_i s3 hsa
        have h3 := setActionsEnabled_eq hsa
        obtain ⟨hj, hv, hc, hn⟩ := saveSettings_frame h
        refine ⟨k, hk, hklt, ?_, ?_, ?_, ?_⟩
        · rw [hj, h3]; simp only [hj1, hk, QList.removeAt_natCast]
        · rw [hv, h3]; simp only [takeTopLevelItem, hv1, hk, QList.removeAt_natCast]
        · rw [hc, h3]; simp only [hc1]
        · rw [hn, h3]; simp only [hn1]

theorem removeTorrent_isSome (s : OverviewPage) (cur sel : Option Nat) (k : Nat)
    (hwf : WellFormed s) (hrow : indexOfTopLevelItem s.torrentView cur = (k : Int))
    (hk : k < s.jobs.length)
    (hsel : ∀ item, sel = some item → item ∈ s.torrentView.eraseIdx k) :
    ∃ t, removeTorrent s cur sel = some t := by
  have hjob : s.jobs[k] ∈ s.jobs := List.getElem_mem _
  have hlive := hwf.2.2.2.2.1 _ hjob
  obtain ⟨c, -, hw⟩ := withClient_isSome s (s.jobs[k]).client
    (fun c => { c with commands := c.commands ++ [Command.stop] }) hlive
  unfold removeTorrent
  simp only [hrow, QList.at_natCast, List.getElem?_eq_getElem hk, hw, takeTopLevelItem,
    QList.removeAt_natCast]
  have hwf2 : WellFormed
      { s with
        clients := setClient s.clients (s.jobs[k]).client
          { c with commands := c.commands ++ [Command.stop] }
        torrentView := s.torrentView.eraseIdx k
        jobs := s.jobs.eraseIdx k } :=
    WellFormed_eraseIdx k rfl rfl (by simp [setClient_keys]) rfl hwf
  rw [setActionsEnabled_ok _ sel hwf2 (by intro item hi; exact hsel item hi)]
  simp only
  apply saveSettings_isSome
  exact hwf2.2.2.2.2.1

theorem removeTorrent_inv {s t : OverviewPage} {cur sel : Option Nat}
    (h : removeTorrent s cur sel = some t) (hs : Inv s) : Inv t := by
  obtain ⟨k, -, -, hj, hv, hc, hn⟩ := removeTorrent_shape h
  exact Inv_eraseIdx k hj hv hc hn hs

/-! ## `torrentError` -/

theorem rowOfClientFrom_getElem (jobs : List Job) (i : Nat) (hi : i < jobs.length)
    (hn : (jobs.map Job.client).Nodup) (n : Int) :
    rowOfClientFrom jobs (jobs[i]).client n = n + i := by
  induction jobs generalizing i n with
  | nil => simp at hi
  | cons job rest ih =>
    cases i with
    | zero => simp [rowOfClientFrom]
    | succ i =>
      simp only [List.length_cons, Nat.add_lt_add_iff_right] at hi
      simp only [List.map_cons, List.nodup_cons] at hn
      have hne : ¬ job.client = (rest[i]).client := by
        intro he
        exact hn.1 (he ▸ List.mem_map_of_mem _ (List.getElem_mem _))
      simp only [List.getElem_cons_succ, rowOfClientFrom, hne, if_false]
      rw [ih i hi hn.2]
      push_cast
      ring

theorem torrentError_shape {s t : OverviewPage} {sender : Nat}
    (h : torrentError s sender = some t) :
    ∃ k : Nat, rowOfClient s sender = (k : Int) ∧ k < s.jobs.length ∧
      t.jobs = s.jobs.eraseIdx k ∧ t.torrentView = s.torrentView.eraseIdx k ∧
      t.clients.map Prod.fst = s.clients.map Prod.fst ∧ t.nextPtr = s.nextPtr := by
  unfold torrentError at h
  dsimp only at h
  split at h
  · cases h
  · rename_i job hat
    obtain ⟨k, hk, hklt, -⟩ := QList.at_eq_some hat
    obtain ⟨hj, hv, hc, hn⟩ := withClient_frame h
    refine ⟨k, hk, hklt, ?_, ?_, ?_, ?_⟩
    · rw [hj]; simp only [hk, QList.removeAt_natCast]
    · rw [hv]; simp only [takeTopLevelItem, hk, QList.removeAt_natCast]
    · rw [hc]
    · rw [hn]

theorem torrentError_isSome (s : OverviewPage) (i : Nat) (hwf : WellFormed s)
    (hi : i < s.jobs.length) :
    rowOfClient s (s.jobs[i]).client = (i : Int) ∧
      ∃ t, torrentError s (s.jobs[i]).client = some t := by
  have hrow : rowOfClient s (s.jobs[i]).client = (i : Int) := by
    unfold rowOfClient
    rw [rowOfClientFrom_getElem s.jobs i hi hwf.2.2.1 0]
    simp
  refine ⟨hrow, ?_⟩
  have hlive := hwf.2.2.2.2.1 _ (List.getElem_mem hi)
  unfold torrentError
  simp only [hrow, QList.at_natCast, List.getElem?_eq_getElem hi]
  obtain ⟨c, -, hw⟩ := withClient_isSome
    { s with jobs := QList.removeAt s.jobs (i : Int),
             torrentView := (takeTopLevelItem s.torrentView (i : Int)).2 }
    (s.jobs[i]).client (fun c => { c with deleteLater := true }) hlive
  exact ⟨_, hw⟩

theorem torrentError_inv {s t : OverviewPage} {sender : Nat}
    (h : torrentError s sender = some t) (hs : Inv s) : Inv t := by
  obtain ⟨k, -, -, hj, hv, hc, hn⟩ := torrentError_shape h
  exact Inv_eraseIdx k hj hv hc hn hs

/-! ## `loadSettings` -/

theorem uploadLimitSliderSetValue_frame (s : OverviewPage) (v : Int) :
    (uploadLimitSliderSetValue s v).jobs = s.jobs ∧
    (uploadLimitSliderSetValue s v).torrentView = s.torrentView ∧
    (uploadLimitSliderSetValue s v).clients = s.clients ∧
    (uploadLimitSliderSetValue s v).nextPtr = s.nextPtr := by
  unfold uploadLimitSliderSetValue setUploadLimit
  dsimp only
  split <;> simp

theorem downloadLimitSliderSetValue_frame (s : OverviewPage) (v : Int) :
    (downloadLimitSliderSetValue s v).jobs = s.jobs ∧
    (downloadLimitSliderSetValue s v).torrentView = s.torrentView ∧
    (downloadLimitSliderSetValue s v).clients = s.clients ∧
    (downloadLimitSliderSetValue s v).nextPtr = s.nextPtr := by
  unfold downloadLimitSliderSetValue setDownloadLimit
  dsimp only
  split <;> simp

theorem addTorrent_fst_eq_true {s : OverviewPage} {engine : Engine} {f d : String}
    {r : QByteArray} (h : (addTorrent s engine f d r).1 = true) :
    alreadyDownloading s.jobs f d = false ∧ engine.setTorrent f = true := by
  by_cases hdup : alreadyDownloading s.jobs f d = true
  · rw [addTorrent_of_duplicate s engine f d r hdup] at h
    cases h
  · by_cases hacc : engine.setTorrent f = true
    · exact ⟨by simpa using hdup, hacc⟩
    · rw [addTorrent_of_rejected s engine f d r (by simpa using hacc)] at h
      cases h

theorem loadTorrent_isSome (s : OverviewPage) (engine : Engine) (r : TorrentRecord) :
    ∃ t, loadTorrent s engine r = some t := by
  unfold loadTorrent
  dsimp only
  split
  · rename_i h
    obtain ⟨hdup, hacc⟩ := addTorrent_fst_eq_true h
    obtain ⟨-, hj, -, hc, -, -⟩ :=
      addTorrent_accepted s engine r.sourceFileName r.destinationFolder r.resumeState hdup hacc
    rw [hj, List.getLast?_concat]
    dsimp only
    obtain ⟨c, -, hw⟩ := withClient_isSome
      (addTorrent s engine r.sourceFileName r.destinationFolder r.resumeState).2 s.nextPtr
      (fun c => { c with downloadedBytes := r.downloadedBytes, uploadedBytes := r.uploadedBytes })
      (by rw [hc]; simp)
    exact ⟨_, hw⟩
  · exact ⟨_, rfl⟩

theorem loadTorrent_inv {s t : OverviewPage} {engine : Engine} {r : TorrentRecord}
    (h : loadTorrent s engine r = some t) (hs : Inv s) : Inv t := by
  have hadd := addTorrent_inv s engine r.sourceFileName r.destinationFolder r.resumeState hs
  unfold loadTorrent at h
  dsimp only at h
  split at h
  · split at h
    · cases h
    · obtain ⟨hj, hv, hc, hn⟩ := withClient_frame h
      exact Inv_congr hj hv hc hn hadd
  · cases h
    exact hadd

theorem loadTorrents_isSome (engine : Engine) (rs : List TorrentRecord) (s : OverviewPage) :
    ∃ t, loadTorrents engine rs s = some t := by
  induction rs generalizing s with
  | nil => exact ⟨s, rfl⟩
  | cons r rest ih =>
    obtain ⟨s1, h1⟩ := loadTorrent_isSome s engine r
    obtain ⟨t, ht⟩ := ih s1
    exact ⟨t, by simp [loadTorrents, h1, ht]⟩

theorem loadTorrents_inv (engine : Engine) (rs : List TorrentRecord) {s t : OverviewPage}
    (h : loadTorrents engine rs s = some t) (hs : Inv s) : Inv t := by
  induction rs generalizing s with
  | nil =>
    simp only [loadTorrents, Option.some.injEq] at h
    exact h ▸ hs
  | cons r rest ih =>
    unfold loadTorrents at h
    split at h
    · cases h
    · rename_i s1 h1
      exact ih h (loadTorrent_inv h1 hs)

theorem loadSettings_isSome (s : OverviewPage) (engine : Engine) (currentPath : String) :
    ∃ t, loadSettings s engine currentPath = some t :=
  loadTorrents_isSome engine _ _

theorem loadSettings_inv {s t : OverviewPage} {engine : Engine} {currentPath : String}
    (h : loadSettings s engine currentPath = some t) (hs : Inv s) : Inv t := by
  unfold loadSettings at h
  dsimp only at h
  refine loadTorrents_inv engine _ h ?_
  obtain ⟨hj2, hv2, hc2, hn2⟩ := downloadLimitSliderSetValue_frame
    (uploadLimitSliderSetValue
      { s with lastDirectory :=
          if (s.settings.lastDirectory.getD "").isEmpty then currentPath
          else s.settings.lastDirectory.getD "" }
      (if s.settings.uploadLimit.getD 0 ≠ 0 then s.settings.uploadLimit.getD 0 else 170))
    (if s.settings.downloadLimit.getD 0 ≠ 0 then s.settings.downloadLimit.getD 0 else 550)
  obtain ⟨hj1, hv1, hc1, hn1⟩ := uploadLimitSliderSetValue_frame
    { s with lastDirectory :=
        if (s.settings.lastDirectory.getD "").isEmpty then currentPath
        else s.settings.lastDirectory.getD "" }
    (if s.settings.uploadLimit.getD 0 ≠ 0 then s.settings.uploadLimit.getD 0 else 170)
  refine Inv_congr (hj2.trans hj1) (hv2.trans hv1) ?_ (hn2.trans hn1) hs
  rw [hc2, hc1]

/-! ## Reachable pages satisfy the invariant -/

theorem initial_inv {s : OverviewPage} (h : Initial s) : Inv s := by
  obtain ⟨hj, hv, hc⟩ := h
  unfold Inv WellFormed
  simp [hj, hv, hc]

theorem event_apply_inv {s t : OverviewPage} (e : Event) (h : e.apply s = some t)
    (hs : Inv s) : Inv t := by
  cases e with
  | addTorrent engine f d r =>
    simp only [Event.apply, Option.some.injEq] at h
    exact h ▸ addTorrent_inv s engine f d r hs
  | removeTorrent cur sel => exact removeTorrent_inv h hs
  | torrentError sender => exact torrentError_inv h hs
  | moveTorrentUp cur sel => exact moveTorrentUp_inv h hs
  | moveTorrentDown cur sel => exact moveTorrentDown_inv h hs
  | loadSettings engine currentPath => exact loadSettings_inv h hs

theorem reachable_inv {s : OverviewPage} (h : Reachable s) : Inv s := by
  induction h with
  | init s h => exact initial_inv h
  | step s t e _ h ih => exact event_apply_inv e h ih

theorem emptyPage_initial : Initial emptyPage := ⟨rfl, rfl, rfl⟩

theorem pageA_reachable : Reachable pageA :=
  Reachable.step emptyPage pageA (Event.addTorrent acceptingEngine "a.torrent" "/dl" [])
    (Reachable.init emptyPage emptyPage_initial) rfl

theorem pageAB_reachable : Reachable pageAB :=
  Reachable.step pageA pageAB (Event.addTorrent acceptingEngine "b.torrent" "/dl" [])
    pageA_reachable rfl

/-! ## Rows of the view after an exchange -/

theorem indexOfTopLevelItem_of_getElem? (view : List Nat) (hn : view.Nodup) (k p : Nat)
    (h : view[k]? = some p) : indexOfTopLevelItem view (some p) = (k : Int) := by
  obtain ⟨hk, hp⟩ := List.getElem?_eq_some_iff.1 h
  have hmem : p ∈ view := hp ▸ List.getElem_mem hk
  rw [indexOfTopLevelItem_of_indexOf hmem]
  have := List.indexOf_getElem hn k hk
  rw [hp] at this
  rw [this]

theorem SelectionOk_swapAdj {s t : OverviewPage} {sel : Option Nat} (k : Nat)
    (hv : t.torrentView = swapAdj s.torrentView k) (h : SelectionOk s sel) :
    SelectionOk t sel := by
  intro item hi
  rw [hv]
  exact (swapAdj_perm s.torrentView k).symm.subset (h item hi)

theorem swapAdj_twice_page (s : OverviewPage) (k : Nat) :
    ({ ({ s with jobs := swapAdj s.jobs k, torrentView := swapAdj s.torrentView k } :
          OverviewPage) with
        jobs := swapAdj (swapAdj s.jobs k) k
        torrentView := swapAdj (swapAdj s.torrentView k) k } : OverviewPage) = s := by
  rw [swapAdj_swapAdj, swapAdj_swapAdj]

/-- Moving row `k + 1` up succeeds on a well-formed page and exchanges rows `k`, `k + 1`
of jobs and view. -/
theorem moveTorrentUp_ok (s : OverviewPage) (cur sel : Option Nat) (k : Nat)
    (hwf : WellFormed s) (hsel : SelectionOk s sel)
    (hrow : indexOfTopLevelItem s.torrentView cur = ((k + 1 : Nat) : Int))
    (hk : k + 1 < s.jobs.length) :
    moveTorrentUp s cur sel =
      some { s with jobs := swapAdj s.jobs k, torrentView := swapAdj s.torrentView k } := by
  rw [moveTorrentUp_eq s cur sel k hrow hk]
  exact setActionsEnabled_ok _ sel (WellFormed_swapAdj k rfl rfl rfl rfl hwf)
    (SelectionOk_swapAdj k rfl hsel)

/-- Moving row `k` down succeeds on a well-formed page and exchanges rows `k`, `k + 1`
of jobs and view. -/
theorem moveTorrentDown_ok (s : OverviewPage) (cur sel : Option Nat) (k : Nat)
    (hwf : WellFormed s) (hsel : SelectionOk s sel)
    (hrow : indexOfTopLevelItem s.torrentView cur = (k : Int))
    (hk : k + 1 < s.jobs.length) :
    moveTorrentDown s cur sel =
      some { s with jobs := swapAdj s.jobs k, torrentView := swapAdj s.torrentView k } := by
  rw [moveTorrentDown_eq s cur sel k hrow hk]
  exact setActionsEnabled_ok _ sel (WellFormed_swapAdj k rfl rfl rfl rfl hwf)
    (SelectionOk_swapAdj k rfl hsel)

theorem move_up_then_down (s : OverviewPage) (cur sel1 sel2 : Option Nat) (k : Nat)
    (hwf : WellFormed s) (hsel1 : SelectionOk s sel1) (hsel2 : SelectionOk s sel2)
    (hrow : indexOfTopLevelItem s.torrentView cur = ((k + 1 : Nat) : Int))
    (hk : k + 1 < s.jobs.length) :
    ∃ t, moveTorrentUp s cur sel1 = some t ∧ moveTorrentDown t cur sel2 = some s := by
  refine ⟨_, moveTorrentUp_ok s cur sel1 k hwf hsel1 hrow hk, ?_⟩
  obtain ⟨p, rfl, -, -, hkv, hp⟩ := indexOfTopLevelItem_eq_natCast hrow
  have hwf' : WellFormed
      { s with jobs := swapAdj s.jobs k, torrentView := swapAdj s.torrentView k } :=
    WellFormed_swapAdj k rfl rfl rfl rfl hwf
  have hrow' : indexOfTopLevelItem (swapAdj s.torrentView k) (some p) = (k : Int) :=
    indexOfTopLevelItem_of_getElem? _ hwf'.2.1 k p
      (by rw [swapAdj_getElem?_left _ _ hkv]; exact hp)
  rw [moveTorrentDown_ok _ (some p) sel2 k hwf' (SelectionOk_swapAdj k rfl hsel2) hrow'
    (by simpa [swapAdj_length] using hk)]
  exact congrArg some (swapAdj_twice_page s k)

theorem move_down_then_up (s : OverviewPage) (cur sel1 sel2 : Option Nat) (k : Nat)
    (hwf : WellFormed s) (hsel1 : SelectionOk s sel1) (hsel2 : SelectionOk s sel2)
    (hrow : indexOfTopLevelItem s.torrentView cur = (k : Int))
    (hk : k + 1 < s.jobs.length) :
    ∃ t, moveTorrentDown s cur sel1 = some t ∧ moveTorrentUp t cur sel2 = some s := by
  refine ⟨_, moveTorrentDown_ok s cur sel1 k hwf hsel1 hrow hk, ?_⟩
  obtain ⟨p, rfl, -, -, -, hp⟩ := indexOfTopLevelItem_eq_natCast hrow
  have hkv : k + 1 < s.torrentView.length := by rw [hwf.1]; exact hk
  have hwf' : WellFormed
      { s with jobs := swapAdj s.jobs k, torrentView := swapAdj s.torrentView k } :=
    WellFormed_swapAdj k rfl rfl rfl rfl hwf
  have hrow' : indexOfTopLevelItem (swapAdj s.torrentView k) (some p) = ((k + 1 : Nat) : Int) :=
    indexOfTopLevelItem_of_getElem? _ hwf'.2.1 (k + 1) p
      (by rw [swapAdj_getElem?_right _ _ hkv]; exact hp)
  rw [moveTorrentUp_ok _ (some p) sel2 k hwf' (SelectionOk_swapAdj k rfl hsel2) hrow'
    (by simpa [swapAdj_length] using hk)]
  exact congrArg some (swapAdj_twice_page s k)

theorem not_mem_eraseIdx_of_nodup {α : Type} (l : List α) (hn : l.Nodup) (k : Nat) (x : α)
    (h : l[k]? = some x) : x ∉ l.eraseIdx k := by
  induction l generalizing k with
  | nil => simp at h
  | cons a t ih =>
    rw [List.nodup_cons] at hn
    cases k with
    | zero =>
      simp only [List.getElem?_cons_zero, Option.some.injEq] at h
      subst h
      simpa using hn.1
    | succ k =>
      simp only [List.getElem?_cons_succ] at h
      have hx : x ∈ t := by
        obtain ⟨hk, hp⟩ := List.getElem?_eq_some_iff.1 h
        exact hp ▸ List.getElem_mem hk
      simp only [List.eraseIdx_cons_succ, List.mem_cons, not_or]
      refine ⟨?_, ih hn.2 k h⟩
      rintro rfl
      exact hn.1 hx

/-! ## The claims -/

/-- C2: in every state reachable from a page without jobs by completed calls of
`addTorrent`, `removeTorrent`, `torrentError`, `moveTorrentUp`, `moveTorrentDown` and
`loadSettings`, no two jobs have the same pair `(torrentFileName, destinationDirectory)`. -/
theorem reachable_jobs_unique_pairs (s : OverviewPage) (h : Reachable s) :
    (s.jobs.map fun job => (job.torrentFileName, job.destinationDirectory)).Nodup :=
  (reachable_inv h).2

theorem reachable_jobs_unique_pairs_witness :
    Reachable pageAB ∧
      (pageAB.jobs.map fun job => (job.torrentFileName, job.destinationDirectory)).Nodup :=
  ⟨pageAB_reachable, reachable_jobs_unique_pairs pageAB pageAB_reachable⟩

/-- C3: `addTorrent` with the pair of a job already present returns `false` and leaves
the whole page (jobs, view rows, dirty flag and everything else) as it was. Hence, when
the pair is new and the engine accepts the file, a second `addTorrent` of the same pair
is the rejected one and exactly one job carries the pair afterwards. -/
theorem addTorrent_duplicate_rejected (s : OverviewPage) (engine engine2 : Engine)
    (fileName destinationFolder : String) (resumeState resumeState2 : QByteArray) :
    ((∃ job ∈ s.jobs, job.torrentFileName = fileName ∧
          job.destinationDirectory = destinationFolder) →
        addTorrent s engine fileName destinationFolder resumeState = (false, s)) ∧
    ((¬ ∃ job ∈ s.jobs, job.torrentFileName = fileName ∧
          job.destinationDirectory = destinationFolder) →
      engine.setTorrent fileName = true →
        (addTorrent s engine fileName destinationFolder resumeState).1 = true ∧
        addTorrent (addTorrent s engine fileName destinationFolder resumeState).2 engine2
            fileName destinationFolder resumeState2 =
          (false, (addTorrent s engine fileName destinationFolder resumeState).2) ∧
        (addTorrent s engine fileName destinationFolder resumeState).2.jobs.countP
            (fun job => job.torrentFileName == fileName &&
              job.destinationDirectory == destinationFolder) = 1) := by
  refine ⟨fun hdup => ?_, fun hnew hacc => ?_⟩
  · exact addTorrent_of_duplicate s engine _ _ _ ((alreadyDownloading_iff _ _ _).2 hdup)
  · have hdup : alreadyDownloading s.jobs fileName destinationFolder = false := by
      have := mt (alreadyDownloading_iff s.jobs fileName destinationFolder).1 hnew
      simpa using this
    obtain ⟨h1, hj, -⟩ :=
      addTorrent_accepted s engine fileName destinationFolder resumeState hdup hacc
    refine ⟨h1, ?_, ?_⟩
    · apply addTorrent_of_duplicate
      rw [alreadyDownloading_iff, hj]
      exact ⟨⟨s.nextPtr, fileName, destinationFolder⟩, by simp, rfl, rfl⟩
    · rw [hj, List.countP_append]
      have h0 : s.jobs.countP (fun job => job.torrentFileName == fileName &&
          job.destinationDirectory == destinationFolder) = 0 := by
        rw [List.countP_eq_zero]
        intro job hjob hp
        apply hnew
        simp only [Bool.and_eq_true, beq_iff_eq] at hp
        exact ⟨job, hjob, hp.1, hp.2⟩
      rw [h0]
      simp [List.countP_cons]

theorem addTorrent_duplicate_rejected_witness :
    (∃ job ∈ pageA.jobs, job.torrentFileName = "a.torrent" ∧
        job.destinationDirectory = "/dl") ∧
      addTorrent pageA acceptingEngine "a.torrent" "/dl" [1] = (false, pageA) ∧
    (¬ ∃ job ∈ emptyPage.jobs, job.torrentFileName = "a.torrent" ∧
        job.destinationDirectory = "/dl") ∧
      acceptingEngine.setTorrent "a.torrent" = true ∧
      (addTorrent emptyPage acceptingEngine "a.torrent" "/dl" []).2.jobs.countP
          (fun job => job.torrentFileName == "a.torrent" &&
            job.destinationDirectory == "/dl") = 1 :=
  have hdup : ∃ job ∈ pageA.jobs, job.torrentFileName = "a.torrent" ∧
      job.destinationDirectory = "/dl" := ⟨⟨0, "a.torrent", "/dl"⟩, by decide, rfl, rfl⟩
  have hnew : ¬ ∃ job ∈ emptyPage.jobs, job.torrentFileName = "a.torrent" ∧
      job.destinationDirectory = "/dl" := by simp [emptyPage]
  ⟨hdup,
    (addTorrent_duplicate_rejected pageA acceptingEngine acceptingEngine "a.torrent" "/dl"
      [1] []).1 hdup,
    hnew, rfl,
    ((addTorrent_duplicate_rejected emptyPage acceptingEngine acceptingEngine "a.torrent" "/dl"
      [] [1]).2 hnew rfl).2.2⟩

/-- C4: when no job has the pair and the engine accepts the file, `addTorrent` returns
`true` and the new jobs sequence is the old one followed by exactly one job with that
`fileName` and `destinationFolder`. -/
theorem addTorrent_appends_job (s : OverviewPage) (engine : Engine)
    (fileName destinationFolder : String) (resumeState : QByteArray)
    (hnew : ¬ ∃ job ∈ s.jobs, job.torrentFileName = fileName ∧
      job.destinationDirectory = destinationFolder)
    (hacc : engine.setTorrent fileName = true) :
    (addTorrent s engine fileName destinationFolder resumeState).1 = true ∧
    ∃ job : Job, job.torrentFileName = fileName ∧ job.destinationDirectory = destinationFolder ∧
      (addTorrent s engine fileName destinationFolder resumeState).2.jobs = s.jobs ++ [job] := by
  have hdup : alreadyDownloading s.jobs fileName destinationFolder = false := by
    have := mt (alreadyDownloading_iff s.jobs fileName destinationFolder).1 hnew
    simpa using this
  obtain ⟨h1, hj, -⟩ :=
    addTorrent_accepted s engine fileName destinationFolder resumeState hdup hacc
  exact ⟨h1, ⟨s.nextPtr, fileName, destinationFolder⟩, rfl, rfl, hj⟩

theorem addTorrent_appends_job_witness :
    (¬ ∃ job ∈ pageA.jobs, job.torrentFileName = "b.torrent" ∧
        job.destinationDirectory = "/dl") ∧
      acceptingEngine.setTorrent "b.torrent" = true ∧
      (addTorrent pageA acceptingEngine "b.torrent" "/dl" []).1 = true ∧
      ∃ job : Job, job.torrentFileName = "b.torrent" ∧ job.destinationDirectory = "/dl" ∧
        (addTorrent pageA acceptingEngine "b.torrent" "/dl" []).2.jobs = pageA.jobs ++ [job] :=
  have hnew : ¬ ∃ job ∈ pageA.jobs, job.torrentFileName = "b.torrent" ∧
      job.destinationDirectory = "/dl" := by decide
  ⟨hnew, rfl, addTorrent_appends_job pageA acceptingEngine "b.torrent" "/dl" [] hnew rfl⟩

/-- C5: when `setTorrent(fileName)` returns `false`, `addTorrent` returns `false` and the
page is unchanged: no job and no view row is created, no client receives `start`, and the
dirty flag keeps its value. -/
theorem addTorrent_engine_rejected (s : OverviewPage) (engine : Engine)
    (fileName destinationFolder : String) (resumeState : QByteArray)
    (hrej : engine.setTorrent fileName = false) :
    addTorrent s engine fileName destinationFolder resumeState = (false, s) :=
  addTorrent_of_rejected s engine fileName destinationFolder resumeState hrej

theorem addTorrent_engine_rejected_witness :
    rejectingEngine.setTorrent "b.torrent" = false ∧
      addTorrent pageA rejectingEngine "b.torrent" "/dl" [] = (false, pageA) :=
  ⟨rfl, addTorrent_engine_rejected pageA rejectingEngine "b.torrent" "/dl" [] rfl⟩

/-- C6: on a well-formed page with the item of row `r` current, `moveTorrentUp` (for
`0 < r < n`) exchanges the jobs of rows `r - 1` and `r`, and `moveTorrentDown` (for
`r < n - 1`) exchanges the jobs of rows `r` and `r + 1`; the length is kept, every other
row holds the same job as before, and the result is a permutation of the old jobs. -/
theorem moveTorrent_exchanges_neighbours (s : OverviewPage) (cur sel : Option Nat) (r : Nat)
    (hwf : WellFormed s) (hsel : SelectionOk s sel)
    (hrow : indexOfTopLevelItem s.torrentView cur = (r : Int)) :
    (0 < r → r < s.jobs.length →
      ∃ t, moveTorrentUp s cur sel = some t ∧ t.jobs.length = s.jobs.length ∧
        t.jobs[r - 1]? = s.jobs[r]? ∧ t.jobs[r]? = s.jobs[r - 1]? ∧
        (∀ i, i ≠ r - 1 → i ≠ r → t.jobs[i]? = s.jobs[i]?) ∧ t.jobs.Perm s.jobs) ∧
    (r + 1 < s.jobs.length →
      ∃ t, moveTorrentDown s cur sel = some t ∧ t.jobs.length = s.jobs.length ∧
        t.jobs[r]? = s.jobs[r + 1]? ∧ t.jobs[r + 1]? = s.jobs[r]? ∧
        (∀ i, i ≠ r → i ≠ r + 1 → t.jobs[i]? = s.jobs[i]?) ∧ t.jobs.Perm s.jobs) := by
  refine ⟨fun h0 hr => ?_, fun hr => ?_⟩
  · obtain ⟨k, rfl⟩ : ∃ k, r = k + 1 := ⟨r - 1, by omega⟩
    refine ⟨_, moveTorrentUp_ok s cur sel k hwf hsel hrow hr, ?_, ?_, ?_, ?_, ?_⟩
    · exact swapAdj_length _ _
    · exact swapAdj_getElem?_left _ _ hr
    · exact swapAdj_getElem?_right _ _ hr
    · intro i h1 h2
      exact swapAdj_getElem?_other _ _ _ (by simpa using h1) h2
    · exact swapAdj_perm _ _
  · refine ⟨_, moveTorrentDown_ok s cur sel r hwf hsel hrow hr, ?_, ?_, ?_, ?_, ?_⟩
    · exact swapAdj_length _ _
    · exact swapAdj_getElem?_left _ _ hr
    · exact swapAdj_getElem?_right _ _ hr
    · intro i h1 h2
      exact swapAdj_getElem?_other _ _ _ h1 h2
    · exact swapAdj_perm _ _

theorem moveTorrent_exchanges_neighbours_witness :
    WellFormed pageABC ∧ SelectionOk pageABC (some 3) ∧
      indexOfTopLevelItem pageABC.torrentView (some 3) = ((1 : Nat) : Int) ∧
      (∃ t, moveTorrentUp pageABC (some 3) (some 3) = some t ∧
        t.jobs.length = pageABC.jobs.length ∧
        t.jobs[1 - 1]? = pageABC.jobs[1]? ∧ t.jobs[1]? = pageABC.jobs[1 - 1]? ∧
        (∀ i, i ≠ 1 - 1 → i ≠ 1 → t.jobs[i]? = pageABC.jobs[i]?) ∧
        t.jobs.Perm pageABC.jobs) ∧
      (∃ t, moveTorrentDown pageABC (some 3) (some 3) = some t ∧
        t.jobs.length = pageABC.jobs.length ∧
        t.jobs[1]? = pageABC.jobs[1 + 1]? ∧ t.jobs[1 + 1]? = pageABC.jobs[1]? ∧
        (∀ i, i ≠ 1 → i ≠ 1 + 1 → t.jobs[i]? = pageABC.jobs[i]?) ∧
        t.jobs.Perm pageABC.jobs) :=
  have hwf : WellFormed pageABC := by decide
  have hsel : SelectionOk pageABC (some 3) := by
    intro item hi
    cases hi
    decide
  have hrow : indexOfTopLevelItem pageABC.torrentView (some 3) = ((1 : Nat) : Int) := by decide
  ⟨hwf, hsel, hrow,
    (moveTorrent_exchanges_neighbours pageABC (some 3) (some 3) 1 hwf hsel hrow).1
      (by decide) (by decide),
    (moveTorrent_exchanges_neighbours pageABC (some 3) (some 3) 1 hwf hsel hrow).2 (by decide)⟩

/-- C7: `moveTorrentUp` with the item of row `0` current and `moveTorrentDown` with the
item of row `jobs.size() - 1` current return without changing the page, so jobs and view
rows are as before. -/
theorem moveTorrent_boundary_noop (s : OverviewPage) (cur sel : Option Nat) :
    (indexOfTopLevelItem s.torrentView cur = 0 → moveTorrentUp s cur sel = some s) ∧
    (indexOfTopLevelItem s.torrentView cur = (s.jobs.length : Int) - 1 →
      moveTorrentDown s cur sel = some s) := by
  refine ⟨fun h => ?_, fun h => ?_⟩
  · simp [moveTorrentUp, h]
  · simp [moveTorrentDown, h]

theorem moveTorrent_boundary_noop_witness :
    indexOfTopLevelItem pageABC.torrentView (some 1) = 0 ∧
      moveTorrentUp pageABC (some 1) (some 1) = some pageABC ∧
    indexOfTopLevelItem pageABC.torrentView (some 5) = (pageABC.jobs.length : Int) - 1 ∧
      moveTorrentDown pageABC (some 5) (some 5) = some pageABC :=
  have h0 : indexOfTopLevelItem pageABC.torrentView (some 1) = 0 := by decide
  have h2 : indexOfTopLevelItem pageABC.torrentView (some 5) =
      (pageABC.jobs.length : Int) - 1 := by decide
  ⟨h0, (moveTorrent_boundary_noop pageABC (some 1) (some 1)).1 h0,
    h2, (moveTorrent_boundary_noop pageABC (some 5) (some 5)).2 h2⟩

/-- C8: on a well-formed page with an interior row `r` (`0 < r < n - 1`) whose item stays
the current one, `moveTorrentUp` followed by `moveTorrentDown`, and `moveTorrentDown`
followed by `moveTorrentUp`, both succeed and give back the original page, in particular
the original jobs sequence and view row order. -/
theorem moveTorrent_up_down_restores (s : OverviewPage) (cur sel1 sel2 : Option Nat) (r : Nat)
    (hwf : WellFormed s) (hsel1 : SelectionOk s sel1) (hsel2 : SelectionOk s sel2)
    (hrow : indexOfTopLevelItem s.torrentView cur = (r : Int))
    (h0 : 0 < r) (h1 : r + 1 < s.jobs.length) :
    (∃ t, moveTorrentUp s cur sel1 = some t ∧ moveTorrentDown t cur sel2 = some s) ∧
    (∃ t, moveTorrentDown s cur sel1 = some t ∧ moveTorrentUp t cur sel2 = some s) := by
  refine ⟨?_, move_down_then_up s cur sel1 sel2 r hwf hsel1 hsel2 hrow h1⟩
  obtain ⟨k, rfl⟩ : ∃ k, r = k + 1 := ⟨r - 1, by omega⟩
  exact move_up_then_down s cur sel1 sel2 k hwf hsel1 hsel2 hrow (by omega)

theorem moveTorrent_up_down_restores_witness :
    WellFormed pageABC ∧ SelectionOk pageABC (some 3) ∧
      indexOfTopLevelItem pageABC.torrentView (some 3) = ((1 : Nat) : Int) ∧
      0 < 1 ∧ 1 + 1 < pageABC.jobs.length ∧
      (∃ t, moveTorrentUp pageABC (some 3) (some 3) = some t ∧
        moveTorrentDown t (some 3) (some 3) = some pageABC) ∧
      (∃ t, moveTorrentDown pageABC (some 3) (some 3) = some t ∧
        moveTorrentUp t (some 3) (some 3) = some pageABC) :=
  have hwf : WellFormed pageABC := by decide
  have hsel : SelectionOk pageABC (some 3) := by
    intro item hi
    cases hi
    decide
  have hrow : indexOfTopLevelItem pageABC.torrentView (some 3) = ((1 : Nat) : Int) := by decide
  ⟨hwf, hsel, hrow, by decide, by decide,
    moveTorrent_up_down_restores pageABC (some 3) (some 3) (some 3) 1 hwf hsel hsel hrow
      (by decide) (by decide)⟩

/-- C9: on a well-formed page, the error event of the client of the job at row `i` is
handled by removing exactly that entry: the new jobs sequence is the old one with entry
`i` deleted (the other jobs keep contents and order) and is one shorter. -/
theorem torrentError_removes_exactly (s : OverviewPage) (i : Nat) (hwf : WellFormed s)
    (hi : i < s.jobs.length) :
    ∃ t, torrentError s (s.jobs[i]).client = some t ∧ t.jobs = s.jobs.eraseIdx i ∧
      t.jobs.length + 1 = s.jobs.length ∧ s.jobs[i] ∉ t.jobs := by
  obtain ⟨hrow, t, ht⟩ := torrentError_isSome s i hwf hi
  obtain ⟨k, hk, -, hj, -⟩ := torrentError_shape ht
  have hki : k = i := by
    rw [hrow] at hk
    exact_mod_cast hk.symm
  subst hki
  refine ⟨t, ht, hj, ?_, ?_⟩
  · rw [hj, List.length_eraseIdx, if_pos hi]
    omega
  · rw [hj]
    exact not_mem_eraseIdx_of_nodup s.jobs (List.Nodup.of_map _ hwf.2.2.1) k _
      (List.getElem?_eq_getElem hi)

theorem torrentError_removes_exactly_witness :
    WellFormed pageABC ∧ 1 < pageABC.jobs.length ∧
      ∃ t, torrentError pageABC 2 = some t ∧ t.jobs = pageABC.jobs.eraseIdx 1 ∧
        t.jobs.length + 1 = pageABC.jobs.length ∧
        (⟨2, "b.torrent", "/dl"⟩ : Job) ∉ t.jobs :=
  have hwf : WellFormed pageABC := by decide
  have hi : 1 < pageABC.jobs.length := by decide
  ⟨hwf, hi, torrentError_removes_exactly pageABC 1 hwf hi⟩

/-- C10: on a well-formed page with the item of row `r` current (`r < jobs.size()`),
`removeTorrent` returns, and the jobs sequence is then the old one with exactly entry `r`
deleted: it is one shorter, the removed job no longer occurs, and the other jobs keep
contents and order. -/
theorem removeTorrent_removes_row (s : OverviewPage) (cur sel : Option Nat) (r : Nat)
    (hwf : WellFormed s) (hrow : indexOfTopLevelItem s.torrentView cur = (r : Int))
    (hr : r < s.jobs.length)
    (hsel : ∀ item, sel = some item → item ∈ s.torrentView.eraseIdx r) :
    ∃ t, removeTorrent s cur sel = some t ∧ t.jobs = s.jobs.eraseIdx r ∧
      t.jobs.length + 1 = s.jobs.length ∧ s.jobs[r] ∉ t.jobs := by
  obtain ⟨t, ht⟩ := removeTorrent_isSome s cur sel r hwf hrow hr hsel
  obtain ⟨k, hk, -, hj, -⟩ := removeTorrent_shape ht
  have hkr : k = r := by
    rw [hrow] at hk
    exact_mod_cast hk.symm
  subst hkr
  refine ⟨t, ht, hj, ?_, ?_⟩
  · rw [hj, List.length_eraseIdx, if_pos hr]
    omega
  · rw [hj]
    exact not_mem_eraseIdx_of_nodup s.jobs (List.Nodup.of_map _ hwf.2.2.1) k _
      (List.getElem?_eq_getElem hr)

theorem pageBA_eq : moveTorrentUp pageAB (some 3) (some 3) = some pageBA := by
  decide

theorem removeTorrent_removes_row_witness :
    WellFormed pageBA ∧ indexOfTopLevelItem pageBA.torrentView (some 1) = ((1 : Nat) : Int) ∧
      1 < pageBA.jobs.length ∧
      ∃ t, removeTorrent pageBA (some 1) (some 3) = some t ∧
        t.jobs = [⟨2, "b.torrent", "/dl"⟩] :=
  have hwf : WellFormed pageBA := by decide
  have hrow : indexOfTopLevelItem pageBA.torrentView (some 1) = ((1 : Nat) : Int) := by decide
  have hr : 1 < pageBA.jobs.length := by decide
  have h := removeTorrent_removes_row pageBA (some 1) (some 3) 1 hwf hrow hr
    (by intro item hi; cases hi; decide)
  ⟨hwf, hrow, hr, h.imp fun _ ht => ⟨ht.1, ht.2.1⟩⟩

/-! ## Bounds of the rate curve -/

theorem rateCurveDiv_bounds (n : Nat) (h : n ≤ 1000) :
    1 ≤ rateCurveDiv n ∧ rateCurveDiv n ≤ 2048 := by
  unfold rateCurveDiv
  split
  · omega
  · split
    · omega
    · split
      · omega
      · omega

theorem rateFromValue_bounds (v : Int) (h0 : 0 ≤ v) (h1 : v ≤ 1000) :
    1 ≤ rateFromValue v ∧ rateFromValue v ≤ 2048 := by
  obtain ⟨n, rfl⟩ := Int.eq_ofNat_of_zero_le h0
  have hn : n ≤ 1000 := by omega
  rw [rateFromValue_eq_div n (by omega)]
  have := rateCurveDiv_bounds n hn
  omega

theorem sliderBound_range (v : Int) : 0 ≤ sliderBound v ∧ sliderBound v ≤ 1000 := by
  unfold sliderBound
  omega

theorem sliderBound_of_neg (v : Int) (h : v < 0) : sliderBound v = 0 := by
  unfold sliderBound
  omega

theorem sliderBound_of_gt (v : Int) (h : 1000 < v) : sliderBound v = 1000 := by
  unfold sliderBound
  omega

theorem sliderBound_of_mem (v : Int) (h0 : 0 ≤ v) (h1 : v ≤ 1000) : sliderBound v = v := by
  unfold sliderBound
  omega

theorem rateFromValue_zero : rateFromValue 0 = 1 := by decide!

theorem rateFromValue_thousand : rateFromValue 1000 = 2048 := by decide!

/-- C17 (counterexample): `rateFromValue` neither rejects nor clamps a value outside
`0 .. 1000`: `-1` takes the `value < 500` branch and gives `-64`, not `1`, and `1001`
gives `2054`, not `2048`. -/
theorem rateFromValue_not_clamped :
    rateFromValue (-1) = -64 ∧ rateFromValue (-1) ≠ rateFromValue 0 ∧
      rateFromValue 1001 = 2054 ∧ rateFromValue 1001 ≠ rateFromValue 1000 := by
  refine ⟨?_, ?_, ?_, ?_⟩ <;> decide!

/-- C17 (amended): the bound is applied by the sliders, whose range is `0 .. 1000`: for
the slider-bounded value the rate is `rateFromValue 0 = 1` when `v < 0`, is
`rateFromValue 1000 = 2048` when `v > 1000`, and always lies between `1` and `2048`. -/
theorem rateFromValue_sliderBound (v : Int) :
    (v < 0 → rateFromValue (sliderBound v) = 1) ∧
    (1000 < v → rateFromValue (sliderBound v) = 2048) ∧
    1 ≤ rateFromValue (sliderBound v) ∧ rateFromValue (sliderBound v) ≤ 2048 := by
  refine ⟨fun h => ?_, fun h => ?_, ?_⟩
  · rw [sliderBound_of_neg v h, rateFromValue_zero]
  · rw [sliderBound_of_gt v h, rateFromValue_thousand]
  · exact rateFromValue_bounds _ (sliderBound_range v).1 (sliderBound_range v).2

theorem rateFromValue_sliderBound_witness :
    ((-1 : Int) < 0 ∧ rateFromValue (sliderBound (-1)) = 1) ∧
      ((1000 : Int) < 1001 ∧ rateFromValue (sliderBound 1001) = 2048) :=
  ⟨⟨by decide, (rateFromValue_sliderBound (-1)).1 (by decide)⟩,
    ⟨by decide, (rateFromValue_sliderBound 1001).2.1 (by decide)⟩⟩

/-- C18: for a control value `v` in `0 .. 1000`, `setUploadLimit v` sets the upload
budget to `rateFromValue v * 1024` and keeps the download budget, `setDownloadLimit v`
sets the download budget to `rateFromValue v * 1024` and keeps the upload budget; the new
budget lies between `1024` and `2097152`, below `2 ^ 31`. -/
theorem setLimit_pushes_rate (s : OverviewPage) (v : Int) (h0 : 0 ≤ v) (h1 : v ≤ 1000) :
    ((setUploadLimit s v).rateDownloadLimit, (setUploadLimit s v).rateUploadLimit) =
        (s.rateDownloadLimit, rateFromValue v * 1024) ∧
    ((setDownloadLimit s v).rateDownloadLimit, (setDownloadLimit s v).rateUploadLimit) =
        (rateFromValue v * 1024, s.rateUploadLimit) ∧
    1024 ≤ rateFromValue v * 1024 ∧ rateFromValue v * 1024 ≤ 2097152 ∧
    rateFromValue v * 1024 < 2 ^ 31 := by
  have hb := rateFromValue_bounds v h0 h1
  refine ⟨rfl, rfl, ?_, ?_, ?_⟩ <;> omega

theorem setLimit_pushes_rate_witness :
    (0 : Int) ≤ 500 ∧ (500 : Int) ≤ 1000 ∧
      ((setUploadLimit emptyPage 500).rateDownloadLimit,
        (setUploadLimit emptyPage 500).rateUploadLimit) = (0, 131072) ∧
      ((setDownloadLimit emptyPage 500).rateDownloadLimit,
        (setDownloadLimit emptyPage 500).rateUploadLimit) = (131072, 0) :=
  have h := setLimit_pushes_rate emptyPage 500 (by decide) (by decide)
  have e : rateFromValue 500 * 1024 = 131072 := by decide!
  ⟨by decide, by decide, e ▸ h.1, e ▸ h.2.1⟩

/-! ## Reading the heap after an update -/

theorem setClient_cons (e : Nat × TorrentClient) (t : List (Nat × TorrentClient)) (p : Nat)
    (c : TorrentClient) :
    setClient (e :: t) p c = (if e.1 = p then (p, c) else e) :: setClient t p c := rfl

theorem lookup_setClient_self (cs : List (Nat × TorrentClient)) (p : Nat) (c : TorrentClient)
    (h : p ∈ cs.map Prod.fst) : List.lookup p (setClient cs p c) = some c := by
  induction cs with
  | nil => simp at h
  | cons e t ih =>
    obtain ⟨k, c'⟩ := e
    rw [setClient_cons]
    by_cases hk : k = p
    · rw [if_pos hk]
      simp [List.lookup]
    · have hb : (p == k) = false := by simpa using fun h' : p = k => hk h'.symm
      have ht : p ∈ t.map Prod.fst := by
        simp only [List.map_cons, List.mem_cons] at h
        rcases h with h | h
        · exact absurd h.symm hk
        · exact h
      rw [if_neg hk]
      simp only [List.lookup, hb]
      exact ih ht

theorem lookup_setClient_ne (cs : List (Nat × TorrentClient)) (p q : Nat) (c : TorrentClient)
    (h : q ≠ p) : List.lookup q (setClient cs p c) = List.lookup q cs := by
  induction cs with
  | nil => rfl
  | cons e t ih =>
    obtain ⟨k, c'⟩ := e
    rw [setClient_cons]
    by_cases hk : k = p
    · have hb : (q == p) = false := by simpa using h
      have hb' : (q == k) = false := by rw [hk]; exact hb
      rw [if_pos hk]
      simp only [List.lookup, hb, hb']
      exact ih
    · rw [if_neg hk]
      cases hq : (q == k)
      · simp only [List.lookup, hq]
        exact ih
      · simp only [List.lookup, hq]

/-! ## `pauseTorrent` -/

theorem pauseTorrent_ok (Paused : Int) (s : OverviewPage) (cur sel : Option Nat) (r : Nat)
    (job : Job) (c : TorrentClient) (hwf : WellFormed s) (hsel : SelectionOk s sel)
    (hrow : indexOfTopLevelItem s.torrentView cur = (r : Int)) (hjob : s.jobs[r]? = some job)
    (hc : s.client? job.client = some c) :
    pauseTorrent Paused s cur sel =
      some { s with
             clients := setClient s.clients job.client
               { c with
                 commands := c.commands ++ [Command.setPaused (decide (c.state ≠ Paused))] } } := by
  unfold pauseTorrent OverviewPage.withClient
  simp only [hrow, QList.at_natCast, hjob, hc]
  exact setActionsEnabled_ok _ sel
    (@WellFormed_congr s _ rfl rfl (by simp [setClient_keys]) rfl hwf) hsel

/-- C15 (counterexample): with `Paused = 1` and `Preparing = 3`, the client of job `A` in
state `Preparing` is neither paused nor past `Preparing`, and `pauseTorrent` still sends
it `setPaused(true)`. -/
theorem pauseTorrent_not_guarded :
    samplePreparing ≠ samplePaused ∧ ¬ samplePreparing < samplePreparing ∧
      pageABPreparing.client? 0 =
        some { sampleClient with destinationFolder := "/dl", commands := [Command.start],
                                 state := samplePreparing } ∧
      (pauseTorrent samplePaused pageABPreparing (some 1) (some 1)).bind
          (fun t => t.client? 0) =
        some { sampleClient with destinationFolder := "/dl", state := samplePreparing,
                                 commands := [Command.start, Command.setPaused true] } := by
  decide

/-- C15 (amended): for a selected job whose client is neither in state `Paused` nor in a
state after `Preparing`, `setActionsEnabled` disables the pause action; `pauseTorrent`
has no check of its own and, when called for that job, sends `setPaused(true)`. -/
theorem pauseTorrent_gated_by_action (Paused Preparing : Int) (s : OverviewPage) (item r : Nat)
    (job : Job) (c : TorrentClient) (hwf : WellFormed s)
    (hrow : indexOfTopLevelItem s.torrentView (some item) = (r : Int))
    (hjob : s.jobs[r]? = some job) (hc : s.client? job.client = some c)
    (h1 : c.state ≠ Paused) (h2 : ¬ Preparing < c.state) :
    (∃ flags, actionFlags Paused Preparing s (some item) = some flags ∧
      flags.pauseTorrentAction = false) ∧
    ∃ t, pauseTorrent Paused s (some item) (some item) = some t ∧
      t.client? job.client =
        some { c with commands := c.commands ++ [Command.setPaused true] } := by
  have hsel : SelectionOk s (some item) := by
    intro it hi
    cases hi
    obtain ⟨p, hp, hmem, -⟩ := indexOfTopLevelItem_eq_natCast hrow
    cases hp
    exact hmem
  refine ⟨?_, ?_⟩
  · unfold actionFlags
    simp only [hrow, QList.at_natCast, hjob, hc]
    exact ⟨_, rfl, by simp [h1, h2]⟩
  · refine ⟨_, pauseTorrent_ok Paused s (some item) (some item) r job c hwf hsel hrow hjob hc, ?_⟩
    have hlive := mem_of_lookup_eq_some s.clients _ c hc
    have hd : decide (c.state ≠ Paused) = true := by simpa using h1
    rw [hd]
    exact lookup_setClient_self s.clients _ _ hlive

theorem pauseTorrent_gated_by_action_witness :
    WellFormed pageABPreparing ∧
      indexOfTopLevelItem pageABPreparing.torrentView (some 1) = ((0 : Nat) : Int) ∧
      pageABPreparing.jobs[0]? = some ⟨0, "a.torrent", "/dl"⟩ ∧
      (∃ flags, actionFlags samplePaused samplePreparing pageABPreparing (some 1) = some flags ∧
        flags.pauseTorrentAction = false) ∧
      ∃ t, pauseTorrent samplePaused pageABPreparing (some 1) (some 1) = some t ∧
        t.client? 0 =
          some { sampleClient with destinationFolder := "/dl", state := samplePreparing,
                                   commands := [Command.start] ++ [Command.setPaused true] } :=
  have hwf : WellFormed pageABPreparing := by decide
  have hrow : indexOfTopLevelItem pageABPreparing.torrentView (some 1) = ((0 : Nat) : Int) := by
    decide
  have hjob : pageABPreparing.jobs[0]? = some ⟨0, "a.torrent", "/dl"⟩ := by decide
  ⟨hwf, hrow, hjob,
    pauseTorrent_gated_by_action samplePaused samplePreparing pageABPreparing 1 0
      ⟨0, "a.torrent", "/dl"⟩
      { sampleClient with destinationFolder := "/dl", commands := [Command.start],
                          state := samplePreparing }
      hwf hrow hjob (by decide) (by decide) (by decide)⟩

/-- C16: on a well-formed page with the item of row `r` current, `pauseTorrent` returns,
sends the client of that job `setPaused(false)` when its state is `Paused` and
`setPaused(true)` when it is in any other state, and leaves the jobs sequence and the
view rows as they were. This covers every valid state (`Paused` or after `Preparing`). -/
theorem pauseTorrent_toggles (Paused : Int) (s : OverviewPage) (cur sel : Option Nat) (r : Nat)
    (job : Job) (c : TorrentClient) (hwf : WellFormed s) (hsel : SelectionOk s sel)
    (hrow : indexOfTopLevelItem s.torrentView cur = (r : Int)) (hjob : s.jobs[r]? = some job)
    (hc : s.client? job.client = some c) :
    ∃ t, pauseTorrent Paused s cur sel = some t ∧ t.jobs = s.jobs ∧
      t.torrentView = s.torrentView ∧
      (c.state = Paused → t.client? job.client =
        some { c with commands := c.commands ++ [Command.setPaused false] }) ∧
      (c.state ≠ Paused → t.client? job.client =
        some { c with commands := c.commands ++ [Command.setPaused true] }) := by
  refine ⟨_, pauseTorrent_ok Paused s cur sel r job c hwf hsel hrow hjob hc, rfl, rfl, ?_, ?_⟩
  · intro h
    have hd : decide (c.state ≠ Paused) = false := by simpa using h
    rw [hd]
    exact lookup_setClient_self s.clients _ _ (mem_of_lookup_eq_some s.clients _ c hc)
  · intro h
    have hd : decide (c.state ≠ Paused) = true := by simpa using h
    rw [hd]
    exact lookup_setClient_self s.clients _ _ (mem_of_lookup_eq_some s.clients _ c hc)

theorem pauseTorrent_toggles_witness :
    WellFormed pagePaused ∧ SelectionOk pagePaused (some 1) ∧
      indexOfTopLevelItem pagePaused.torrentView (some 1) = ((0 : Nat) : Int) ∧
      pagePaused.jobs[0]? = some ⟨0, "a.torrent", "/dl"⟩ ∧
      ∃ t, pauseTorrent samplePaused pagePaused (some 1) (some 1) = some t ∧
        t.jobs = pagePaused.jobs ∧
        t.client? 0 =
          some { sampleClient with destinationFolder := "/dl", state := samplePaused,
                                   commands := [Command.start] ++ [Command.setPaused false] } :=
  have hwf : WellFormed pagePaused := by decide
  have hsel : SelectionOk pagePaused (some 1) := by
    intro item hi
    cases hi
    decide
  have hrow : indexOfTopLevelItem pagePaused.torrentView (some 1) = ((0 : Nat) : Int) := by
    decide
  have hjob : pagePaused.jobs[0]? = some ⟨0, "a.torrent", "/dl"⟩ := by decide
  have h := pauseTorrent_toggles samplePaused pagePaused (some 1) (some 1) 0
    ⟨0, "a.torrent", "/dl"⟩
    { sampleClient with destinationFolder := "/dl", commands := [Command.start],
                        state := samplePaused }
    hwf hsel hrow hjob (by decide)
  ⟨hwf, hsel, hrow, hjob, h.imp fun _ ht => ⟨ht.1, ht.2.1, ht.2.2.2.1 rfl⟩⟩

/-! ## Calls without a current item, and calls that leave the dirty flag alone -/

theorem indexOfTopLevelItem_none (view : List Nat) : indexOfTopLevelItem view none = -1 := rfl

/-- C19 (counterexample): with no current item the row is `-1`, `jobs.at(-1)` is out of
range, and `removeTorrent`, `pauseTorrent`, `moveTorrentUp` and `moveTorrentDown` all
read there instead of returning as no-ops. -/
theorem no_current_item_reads_out_of_range :
    indexOfTopLevelItem pageAB.torrentView none = -1 ∧ QList.at pageAB.jobs (-1) = none ∧
      removeTorrent pageAB none none = none ∧
      pauseTorrent samplePaused pageAB none none = none ∧
      moveTorrentUp pageAB none none = none ∧ moveTorrentDown pageAB none none = none := by
  decide

/-- A client that `rowOfClient` does not find gives row `-1`; `torrentError` then reads
`jobs.at(-1)` and the two rate handlers dereference the null `topLevelItem(-1)`. -/
theorem unknown_client_reads_out_of_range :
    rowOfClient pageAB 99 = -1 ∧ torrentError pageAB 99 = none ∧
      updateDownloadRate pageAB 99 0 = none ∧ updateUploadRate pageAB 99 0 = none := by
  decide

/-- C19 (amended): the four slots have no check for a missing current item; the gate is
`setActionsEnabled`, which disables the remove, pause, up and down actions when nothing
is selected. Called with no current item, `removeTorrent`, `pauseTorrent` and
`moveTorrentUp` read `jobs` out of range, and `moveTorrentDown` returns without change on
an empty registry and reads out of range otherwise. -/
theorem no_current_item_gated (Paused Preparing : Int) (s : OverviewPage) (sel : Option Nat) :
    actionFlags Paused Preparing s none =
        some { removeTorrentAction := false, pauseTorrentAction := false,
               upActionTool := false, downActionTool := false } ∧
    removeTorrent s none sel = none ∧ pauseTorrent Paused s none sel = none ∧
    moveTorrentUp s none sel = none ∧
    (s.jobs = [] → moveTorrentDown s none sel = some s) ∧
    (s.jobs ≠ [] → moveTorrentDown s none sel = none) := by
  refine ⟨rfl, ?_, ?_, ?_, ?_, ?_⟩
  · simp [removeTorrent, indexOfTopLevelItem, QList.at]
  · simp [pauseTorrent, indexOfTopLevelItem, QList.at]
  · simp [moveTorrentUp, indexOfTopLevelItem, QList.at]
  · intro h
    simp [moveTorrentDown, indexOfTopLevelItem, h]
  · intro h
    have hlen : 0 < s.jobs.length := List.length_pos.2 h
    have hne : ¬ (-1 : Int) = (s.jobs.length : Int) - 1 := by omega
    unfold moveTorrentDown
    simp only [indexOfTopLevelItem_none, hne, if_false]
    have : QList.at s.jobs (-1) = none := by simp [QList.at]
    rw [this]
    split <;> rfl

theorem no_current_item_gated_witness :
    emptyPage.jobs = [] ∧ moveTorrentDown emptyPage none none = some emptyPage ∧
      pageAB.jobs ≠ [] ∧ moveTorrentDown pageAB none none = none :=
  ⟨rfl, (no_current_item_gated samplePaused samplePreparing emptyPage none).2.2.2.2.1 rfl,
    by decide,
    (no_current_item_gated samplePaused samplePreparing pageAB none).2.2.2.2.2 (by decide)⟩

theorem moveTorrentUp_keeps_flag {s t : OverviewPage} {cur sel : Option Nat}
    (h : moveTorrentUp s cur sel = some t) :
    t.saveChanges = s.saveChanges ∧ t.settings = s.settings ∧ t.saveTimers = s.saveTimers := by
  rcases moveTorrentUp_cases h with rfl | ⟨k, -, rfl⟩ <;> exact ⟨rfl, rfl, rfl⟩

theorem moveTorrentDown_keeps_flag {s t : OverviewPage} {cur sel : Option Nat}
    (h : moveTorrentDown s cur sel = some t) :
    t.saveChanges = s.saveChanges ∧ t.settings = s.settings ∧ t.saveTimers = s.saveTimers := by
  rcases moveTorrentDown_cases h with rfl | ⟨k, -, rfl⟩ <;> exact ⟨rfl, rfl, rfl⟩

theorem setLimit_keeps_flag (s : OverviewPage) (v : Int) :
    (setUploadLimit s v).saveChanges = s.saveChanges ∧
      (setUploadLimit s v).settings = s.settings ∧
      (setDownloadLimit s v).saveChanges = s.saveChanges ∧
      (setDownloadLimit s v).settings = s.settings :=
  ⟨rfl, rfl, rfl, rfl⟩

theorem saveSettings_pageAB : saveSettings pageAB = some pageABSaved := by decide

/-- C20 (failing input): on the freshly saved page `pageABSaved` (dirty flag clear),
moving `B` up changes the jobs order, a `torrentError` of `A` removes a job and a slider
change to `500` changes the upload limit, and each time the dirty flag stays clear and
the settings stay as written before: no write of the new state is pending. -/
theorem mutation_without_dirty_flag :
    pageABSaved.saveChanges = false ∧
    (moveTorrentUp pageABSaved (some 3) (some 3)).map
        (fun t => (t.jobs.map Job.torrentFileName, t.saveChanges,
          decide (t.settings = pageABSaved.settings), t.saveTimers)) =
      some (["b.torrent", "a.torrent"], false, true, pageABSaved.saveTimers) ∧
    (moveTorrentDown pageABSaved (some 1) (some 1)).map
        (fun t => (t.jobs.map Job.torrentFileName, t.saveChanges,
          decide (t.settings = pageABSaved.settings), t.saveTimers)) =
      some (["b.torrent", "a.torrent"], false, true, pageABSaved.saveTimers) ∧
    (torrentError pageABSaved 0).map
        (fun t => (t.jobs.map Job.torrentFileName, t.saveChanges,
          decide (t.settings = pageABSaved.settings), t.saveTimers)) =
      some (["b.torrent"], false, true, pageABSaved.saveTimers) ∧
    ((uploadLimitSliderSetValue pageABSaved 500).uploadLimitSlider,
        (uploadLimitSliderSetValue pageABSaved 500).saveChanges,
        (uploadLimitSliderSetValue pageABSaved 500).settings.uploadLimit) =
      (500, false, some 0) := by
  decide

/-! ## Defaults of `loadSettings` and the record written by `saveSettings` -/

theorem uploadLimitSliderSetValue_value (s : OverviewPage) (v : Int) :
    (uploadLimitSliderSetValue s v).uploadLimitSlider = sliderBound v ∧
    (uploadLimitSliderSetValue s v).downloadLimitSlider = s.downloadLimitSlider ∧
    (uploadLimitSliderSetValue s v).settings = s.settings := by
  unfold uploadLimitSliderSetValue setUploadLimit
  dsimp only
  split
  · rename_i h
    exact ⟨h, rfl, rfl⟩
  · exact ⟨rfl, rfl, rfl⟩

theorem downloadLimitSliderSetValue_value (s : OverviewPage) (v : Int) :
    (downloadLimitSliderSetValue s v).downloadLimitSlider = sliderBound v ∧
    (downloadLimitSliderSetValue s v).uploadLimitSlider = s.uploadLimitSlider ∧
    (downloadLimitSliderSetValue s v).settings = s.settings := by
  unfold downloadLimitSliderSetValue setDownloadLimit
  dsimp only
  split
  · rename_i h
    exact ⟨h, rfl, rfl⟩
  · exact ⟨rfl, rfl, rfl⟩

/-- The sliders after `loadSettings`, whatever the `Torrents` array holds. -/
theorem loadTorrent_sliders {s t : OverviewPage} {engine : Engine} {r : TorrentRecord}
    (h : loadTorrent s engine r = some t) :
    t.uploadLimitSlider = s.uploadLimitSlider ∧ t.downloadLimitSlider = s.downloadLimitSlider := by
  unfold loadTorrent at h
  dsimp only at h
  have hadd : (addTorrent s engine r.sourceFileName r.destinationFolder r.resumeState).2.uploadLimitSlider
        = s.uploadLimitSlider ∧
      (addTorrent s engine r.sourceFileName r.destinationFolder r.resumeState).2.downloadLimitSlider
        = s.downloadLimitSlider := by
    unfold addTorrent
    dsimp only
    split
    · exact ⟨rfl, rfl⟩
    · split
      · exact ⟨rfl, rfl⟩
      · split <;> exact ⟨rfl, rfl⟩
  split at h
  · unfold OverviewPage.withClient at h
    split at h
    · cases h
    · split at h
      · cases h
      · cases h
        exact hadd
  · cases h
    exact hadd

theorem loadTorrents_sliders (engine : Engine) (rs : List TorrentRecord) {s t : OverviewPage}
    (h : loadTorrents engine rs s = some t) :
    t.uploadLimitSlider = s.uploadLimitSlider ∧ t.downloadLimitSlider = s.downloadLimitSlider := by
  induction rs generalizing s with
  | nil =>
    simp only [loadTorrents, Option.some.injEq] at h
    subst h
    exact ⟨rfl, rfl⟩
  | cons r rest ih =>
    unfold loadTorrents at h
    split at h
    · cases h
    · rename_i s1 h1
      obtain ⟨a1, a2⟩ := loadTorrent_sliders h1
      obtain ⟨b1, b2⟩ := ih h
      exact ⟨b1.trans a1, b2.trans a2⟩

theorem loadSettings_sliders {s t : OverviewPage} {engine : Engine} {currentPath : String}
    (h : loadSettings s engine currentPath = some t) :
    t.uploadLimitSlider =
        sliderBound (if s.settings.uploadLimit.getD 0 ≠ 0 then s.settings.uploadLimit.getD 0
          else 170) ∧
    t.downloadLimitSlider =
        sliderBound (if s.settings.downloadLimit.getD 0 ≠ 0 then s.settings.downloadLimit.getD 0
          else 550) := by
  unfold loadSettings at h
  dsimp only at h
  obtain ⟨h1, h2⟩ := loadTorrents_sliders engine _ h
  rw [h1, h2]
  refine ⟨?_, ?_⟩
  · rw [(downloadLimitSliderSetValue_value _ _).2.1]
    exact (uploadLimitSliderSetValue_value _ _).1
  · exact (downloadLimitSliderSetValue_value _ _).1

/-- C13 (counterexample): loading into the page without a persisted record sets the
upload control to `170` and the download control to `550`, not to the midpoint `500`. -/
theorem loadSettings_defaults_not_midpoint :
    emptyPage.settings.uploadLimit = none ∧ emptyPage.settings.downloadLimit = none ∧
      emptyPage.settings.torrents = [] ∧
      (loadSettings emptyPage acceptingEngine "/home").map
          (fun t => (t.uploadLimitSlider, t.downloadLimitSlider, t.jobs)) =
        some (170, 550, []) ∧
      (170 : Int) ≠ 500 ∧ (550 : Int) ≠ 500 := by
  decide

/-- C13 (amended): when the settings hold no `UploadLimit`, no `DownloadLimit` and no
`Torrents` entry, `loadSettings` returns with the upload control at `170`, the download
control at `550`, and the job list as it was (empty on a fresh page). -/
theorem loadSettings_defaults (s : OverviewPage) (engine : Engine) (currentPath : String)
    (hu : s.settings.uploadLimit = none) (hd : s.settings.downloadLimit = none)
    (ht : s.settings.torrents = []) :
    ∃ t, loadSettings s engine currentPath = some t ∧ t.uploadLimitSlider = 170 ∧
      t.downloadLimitSlider = 550 ∧ t.jobs = s.jobs := by
  obtain ⟨t, h⟩ := loadSettings_isSome s engine currentPath
  obtain ⟨h1, h2⟩ := loadSettings_sliders h
  refine ⟨t, h, ?_, ?_, ?_⟩
  · rw [h1, hu]
    decide
  · rw [h2, hd]
    decide
  · unfold loadSettings at h
    dsimp only at h
    rw [ht] at h
    simp only [loadTorrents, Option.some.injEq] at h
    rw [← h, (downloadLimitSliderSetValue_frame _ _).1, (uploadLimitSliderSetValue_frame _ _).1]

theorem loadSettings_defaults_witness :
    emptyPage.settings.uploadLimit = none ∧ emptyPage.settings.downloadLimit = none ∧
      emptyPage.settings.torrents = [] ∧
      ∃ t, loadSettings emptyPage acceptingEngine "/home" = some t ∧
        t.uploadLimitSlider = 170 ∧ t.downloadLimitSlider = 550 ∧ t.jobs = emptyPage.jobs :=
  ⟨rfl, rfl, rfl, loadSettings_defaults emptyPage acceptingEngine "/home" rfl rfl rfl⟩

theorem recordsOfJobs_congr (s t : OverviewPage) (jobs : List Job) (h : t.clients = s.clients) :
    recordsOfJobs t jobs = recordsOfJobs s jobs := by
  induction jobs with
  | nil => rfl
  | cons job rest ih =>
    simp only [recordsOfJobs, recordOfJob, OverviewPage.client?, h, ih]

theorem recordsOfJobs_length {s : OverviewPage} {jobs : List Job} {rs : List TorrentRecord}
    (h : recordsOfJobs s jobs = some rs) : rs.length = jobs.length := by
  induction jobs generalizing rs with
  | nil =>
    simp only [recordsOfJobs, Option.some.injEq] at h
    subst h
    rfl
  | cons job rest ih =>
    unfold recordsOfJobs at h
    split at h
    · cases h
    · split at h
      · cases h
      · rename_i rs' hrs
        cases h
        simp [ih hrs]

/-- A save with the dirty flag set: the record written and the page afterwards. -/
theorem saveSettings_dirty (s : OverviewPage) (records : List TorrentRecord)
    (hd : s.saveChanges = true) (hr : recordsOfJobs s s.jobs = some records) :
    saveSettings s =
      some { s with saveChanges := false, settings := recordOfPage s records,
                    syncs := s.syncs + 1 } := by
  unfold saveSettings
  simp only [hd, Bool.not_true, Bool.false_eq_true, if_false, hr]
  rfl

theorem saveSettings_clean (s : OverviewPage) (hd : s.saveChanges = false) :
    saveSettings s = some s := by
  unfold saveSettings
  simp [hd]

/-- C14: with the dirty flag set and every job's client live, `saveSettings` writes a
record that is a function of the current page alone (last directory, the two slider
values, one entry per job in jobs order, no other key), whatever record `prior` the
settings held before; a second `saveSettings` right after writes nothing and leaves the
record, and saving the same page once more with the flag set again writes the same
record. -/
theorem saveSettings_full_overwrite (s : OverviewPage) (prior : Settings)
    (hlive : ∀ job ∈ s.jobs, job.client ∈ s.clients.map Prod.fst) :
    ∃ records t, recordsOfJobs s s.jobs = some records ∧ records.length = s.jobs.length ∧
      saveSettings { s with settings := prior, saveChanges := true } = some t ∧
      t.settings = recordOfPage s records ∧ t.saveChanges = false ∧
      saveSettings t = some t ∧
      ∃ u, saveSettings { t with saveChanges := true } = some u ∧ u.settings = t.settings := by
  obtain ⟨records, hr⟩ := recordsOfJobs_isSome s s.jobs hlive
  have hr1 : recordsOfJobs { s with settings := prior, saveChanges := true }
      ({ s with settings := prior, saveChanges := true } : OverviewPage).jobs = some records :=
    (recordsOfJobs_congr s { s with settings := prior, saveChanges := true } s.jobs rfl).trans hr
  refine ⟨records, _, hr, recordsOfJobs_length hr, saveSettings_dirty _ records rfl hr1, rfl, rfl,
    saveSettings_clean _ rfl, ?_⟩
  refine ⟨_, saveSettings_dirty _ records rfl ?_, rfl⟩
  exact (recordsOfJobs_congr s
    { s with saveChanges := true, settings := recordOfPage s records, syncs := s.syncs + 1 }
    s.jobs rfl).trans hr

theorem saveSettings_full_overwrite_witness :
    (∀ job ∈ pageAB.jobs, job.client ∈ pageAB.clients.map Prod.fst) ∧
      ∃ records t, recordsOfJobs pageAB pageAB.jobs = some records ∧
        records.length = pageAB.jobs.length ∧
        saveSettings { pageAB with settings := pageABSaved.settings, saveChanges := true }
          = some t ∧
        t.settings = recordOfPage pageAB records ∧ t.saveChanges = false ∧
        saveSettings t = some t ∧
        ∃ u, saveSettings { t with saveChanges := true } = some u ∧ u.settings = t.settings :=
  have hlive : ∀ job ∈ pageAB.jobs, job.client ∈ pageAB.clients.map Prod.fst := by decide
  ⟨hlive, saveSettings_full_overwrite pageAB pageABSaved.settings hlive⟩

/-! ## `removeTorrent` removes at once -/

theorem removeTorrent_clients {s t : OverviewPage} {cur sel : Option Nat}
    (h : removeTorrent s cur sel = some t) :
    ∃ job c, QList.at s.jobs (indexOfTopLevelItem s.torrentView cur) = some job ∧
      s.client? job.client = some c ∧
      t.clients = setClient s.clients job.client
        { c with commands := c.commands ++ [Command.stop] } := by
  unfold removeTorrent at h
  dsimp only at h
  split at h
  · cases h
  · rename_i job hat
    cases hc : s.client? job.client with
    | none => simp [OverviewPage.withClient, hc] at h
    | some c =>
      simp only [OverviewPage.withClient, hc] at h
      split at h
      · cases h
      · rename_i s3 hsa
        have h3 := setActionsEnabled_eq hsa
        obtain ⟨-, -, hcl, -⟩ := saveSettings_frame h
        exact ⟨job, c, hat, hc, by rw [hcl, h3]⟩

theorem torrentStopped_jobs {s t : OverviewPage} {sender : Nat}
    (h : torrentStopped s sender = some t) :
    t.jobs = s.jobs ∧ t.torrentView = s.torrentView := by
  unfold torrentStopped at h
  split at h
  · cases h
  · rename_i s1 hw
    obtain ⟨hj, hv, -, -⟩ := withClient_frame hw
    split at h
    · cases h
      exact ⟨hj, hv⟩
    · cases h
      exact ⟨hj, hv⟩

theorem map_eraseIdx_key (jobs : List Job) (r : Nat) :
    (jobs.eraseIdx r).map Job.key = (jobs.map Job.key).eraseIdx r := by
  induction jobs generalizing r with
  | nil => rfl
  | cons job rest ih =>
    cases r with
    | zero => rfl
    | succ r => simp [ih]

/-- C11 (counterexample): removing `A` from `[B, A]` while its client has only been told
to `stop` leaves `[B]` at once, with no `torrentStopped` handled, and a new `addTorrent`
of the pair of `A` is then accepted instead of being rejected as a duplicate. -/
theorem removeTorrent_not_pending :
    (removeTorrent pageBA (some 1) (some 3)).map
        (fun t => (t.jobs, (t.client? 0).map (fun c => c.commands),
          (addTorrent t acceptingEngine "a.torrent" "/dl" []).1)) =
      some ([⟨2, "b.torrent", "/dl"⟩], some [Command.start, Command.stop], true) := by
  decide

/-- C11 (amended): on a well-formed page with pairwise distinct job pairs, `removeTorrent`
on the job `J` of the current row sends `stop` to the client of `J` and removes `J` from
the jobs sequence before it returns; there is no pending-removal state. A later
`torrentStopped` leaves the jobs sequence as it is, and right after `removeTorrent` an
`addTorrent` of the pair of `J` is accepted whenever the engine accepts the file. -/
theorem removeTorrent_immediate (s : OverviewPage) (cur sel : Option Nat) (r : Nat) (job : Job)
    (c : TorrentClient) (engine : Engine) (resumeState : QByteArray)
    (hwf : WellFormed s) (hkey : (s.jobs.map Job.key).Nodup)
    (hrow : indexOfTopLevelItem s.torrentView cur = (r : Int))
    (hjob : s.jobs[r]? = some job) (hc : s.client? job.client = some c)
    (hsel : ∀ item, sel = some item → item ∈ s.torrentView.eraseIdx r) :
    ∃ t, removeTorrent s cur sel = some t ∧
      t.client? job.client = some { c with commands := c.commands ++ [Command.stop] } ∧
      t.jobs = s.jobs.eraseIdx r ∧ job ∉ t.jobs ∧
      (∀ sender u, torrentStopped t sender = some u → u.jobs = t.jobs) ∧
      (engine.setTorrent job.torrentFileName = true →
        (addTorrent t engine job.torrentFileName job.destinationDirectory resumeState).1 = true) := by
  obtain ⟨hr, hget⟩ := List.getElem?_eq_some_iff.1 hjob
  obtain ⟨t, ht⟩ := removeTorrent_isSome s cur sel r hwf hrow hr hsel
  obtain ⟨k, hk, -, hj, -⟩ := removeTorrent_shape ht
  have hkr : k = r := by
    rw [hrow] at hk
    exact_mod_cast hk.symm
  subst hkr
  obtain ⟨job', c', hat, hc', hcl⟩ := removeTorrent_clients ht
  rw [hrow, QList.at_natCast, hjob] at hat
  cases hat
  rw [hc] at hc'
  cases hc'
  refine ⟨t, ht, ?_, hj, ?_, ?_, ?_⟩
  · show List.lookup job.client t.clients = _
    rw [hcl]
    exact lookup_setClient_self s.clients _ _ (mem_of_lookup_eq_some s.clients _ c hc)
  · rw [hj]
    exact not_mem_eraseIdx_of_nodup s.jobs (List.Nodup.of_map _ hwf.2.2.1) k job hjob
  · intro sender u hu
    exact (torrentStopped_jobs hu).1
  · intro hacc
    have hnot : job.key ∉ t.jobs.map Job.key := by
      rw [hj, map_eraseIdx_key]
      apply not_mem_eraseIdx_of_nodup _ hkey k
      rw [List.getElem?_map, hjob]
      rfl
    have hdup : alreadyDownloading t.jobs job.torrentFileName job.destinationDirectory = false := by
      have := mt (alreadyDownloading_iff_key t.jobs job.torrentFileName
        job.destinationDirectory).1 hnot
      simpa using this
    exact (addTorrent_accepted t engine _ _ resumeState hdup hacc).1

theorem removeTorrent_immediate_witness :
    WellFormed pageBA ∧ (pageBA.jobs.map Job.key).Nodup ∧
      indexOfTopLevelItem pageBA.torrentView (some 1) = ((1 : Nat) : Int) ∧
      pageBA.jobs[1]? = some ⟨0, "a.torrent", "/dl"⟩ ∧
      acceptingEngine.setTorrent "a.torrent" = true ∧
      ∃ t, removeTorrent pageBA (some 1) (some 3) = some t ∧
        t.jobs = pageBA.jobs.eraseIdx 1 ∧ (⟨0, "a.torrent", "/dl"⟩ : Job) ∉ t.jobs ∧
        (addTorrent t acceptingEngine "a.torrent" "/dl" []).1 = true :=
  have hwf : WellFormed pageBA := by decide
  have hkey : (pageBA.jobs.map Job.key).Nodup := by decide
  have hrow : indexOfTopLevelItem pageBA.torrentView (some 1) = ((1 : Nat) : Int) := by decide
  have hjob : pageBA.jobs[1]? = some ⟨0, "a.torrent", "/dl"⟩ := by decide
  have h := removeTorrent_immediate pageBA (some 1) (some 3) 1 ⟨0, "a.torrent", "/dl"⟩
    { sampleClient with destinationFolder := "/dl", commands := [Command.start] }
    acceptingEngine [] hwf hkey hrow hjob (by decide) (by intro item hi; cases hi; decide)
  ⟨hwf, hkey, hrow, hjob, rfl, h.imp fun _ ht => ⟨ht.1, ht.2.2.1, ht.2.2.2.1, ht.2.2.2.2.2 rfl⟩⟩

/-! ## Saving and loading again -/

theorem lookup_append_of_mem (cs cs2 : List (Nat × TorrentClient)) (q : Nat)
    (h : q ∈ cs.map Prod.fst) : List.lookup q (cs ++ cs2) = List.lookup q cs := by
  induction cs with
  | nil => simp at h
  | cons e t ih =>
    obtain ⟨k, c⟩ := e
    cases hq : (q == k)
    · have hne : q ≠ k := by simpa using hq
      have ht : q ∈ t.map Prod.fst := by
        simp only [List.map_cons, List.mem_cons] at h
        rcases h with h | h
        · exact absurd h hne
        · exact h
      simp only [List.cons_append, List.lookup, hq]
      exact ih ht
    · simp only [List.cons_append, List.lookup, hq]

theorem recordsOfJobs_congr_jobs (s t : OverviewPage) (jobs : List Job)
    (h : ∀ job ∈ jobs, t.client? job.client = s.client? job.client) :
    recordsOfJobs t jobs = recordsOfJobs s jobs := by
  induction jobs with
  | nil => rfl
  | cons job rest ih =>
    have h1 := h job (by simp)
    have h2 := ih (fun j hj => h j (by simp [hj]))
    simp only [recordsOfJobs, recordOfJob, h1, h2]

theorem recordsOfJobs_append (s : OverviewPage) (l1 l2 : List Job) (a b : List TorrentRecord)
    (h1 : recordsOfJobs s l1 = some a) (h2 : recordsOfJobs s l2 = some b) :
    recordsOfJobs s (l1 ++ l2) = some (a ++ b) := by
  induction l1 generalizing a with
  | nil =>
    simp only [recordsOfJobs, Option.some.injEq] at h1
    subst h1
    simpa using h2
  | cons job rest ih =>
    unfold recordsOfJobs at h1
    split at h1
    · cases h1
    · rename_i r hr
      split at h1
      · cases h1
      · rename_i rs hrs
        cases h1
        have hrest := ih rs hrs
        rw [List.cons_append, recordsOfJobs]
        simp only [hr, hrest, List.cons_append]

theorem recordsOfJobs_keys {s : OverviewPage} {jobs : List Job} {rs : List TorrentRecord}
    (h : recordsOfJobs s jobs = some rs) : rs.map TorrentRecord.key = jobs.map Job.key := by
  induction jobs generalizing rs with
  | nil =>
    simp only [recordsOfJobs, Option.some.injEq] at h
    subst h
    rfl
  | cons job rest ih =>
    unfold recordsOfJobs at h
    split at h
    · cases h
    · rename_i r hr
      split at h
      · cases h
      · rename_i rs' hrs
        cases h
        unfold recordOfJob at hr
        split at hr
        · cases hr
        · cases hr
          simp only [List.map_cons, ih hrs]
          rfl

theorem addTorrent_accepted_clients (s : OverviewPage) (engine : Engine) (f d : String)
    (r : QByteArray) (hdup : alreadyDownloading s.jobs f d = false)
    (hacc : engine.setTorrent f = true) :
    (addTorrent s engine f d r).2.clients =
      setClient
        (s.clients ++
          [(s.nextPtr, { engine.newClient with destinationFolder := d, dumpedState := r })])
        s.nextPtr
        { engine.newClient with
          destinationFolder := d, dumpedState := r
          commands := engine.newClient.commands ++ [Command.start] } := by
  unfold addTorrent
  simp only [hdup, hacc, Bool.false_eq_true, if_false, Bool.not_true]
  cases hs : s.saveChanges <;> simp [hs]

theorem loadTorrent_record (s : OverviewPage) (engine : Engine) (r : TorrentRecord)
    (rs0 : List TorrentRecord) (hs : Inv s) (hrec : recordsOfJobs s s.jobs = some rs0)
    (hnew : r.key ∉ s.jobs.map Job.key) (hacc : engine.setTorrent r.sourceFileName = true) :
    ∃ t, loadTorrent s engine r = some t ∧ Inv t ∧
      recordsOfJobs t t.jobs = some (rs0 ++ [r]) ∧
      t.jobs.map Job.key = s.jobs.map Job.key ++ [r.key] := by
  have hdup : alreadyDownloading s.jobs r.sourceFileName r.destinationFolder = false := by
    have := mt (alreadyDownloading_iff_key s.jobs r.sourceFileName r.destinationFolder).1 hnew
    simpa using this
  obtain ⟨h1, hj, -, hkeys, -, -⟩ :=
    addTorrent_accepted s engine r.sourceFileName r.destinationFolder r.resumeState hdup hacc
  have hcl := addTorrent_accepted_clients s engine r.sourceFileName r.destinationFolder
    r.resumeState hdup hacc
  have hpmem : s.nextPtr ∈
      (addTorrent s engine r.sourceFileName r.destinationFolder r.resumeState).2.clients.map
        Prod.fst := by
    rw [hkeys]
    simp
  have hlook : (addTorrent s engine r.sourceFileName r.destinationFolder r.resumeState).2.client?
      s.nextPtr =
      some { engine.newClient with
             destinationFolder := r.destinationFolder, dumpedState := r.resumeState
             commands := engine.newClient.commands ++ [Command.start] } := by
    show List.lookup s.nextPtr _ = _
    rw [hcl]
    apply lookup_setClient_self
    simp
  obtain ⟨t, ht⟩ := loadTorrent_isSome s engine r
  have hinv := loadTorrent_inv ht hs
  have hshape : t.jobs = s.jobs ++ [⟨s.nextPtr, r.sourceFileName, r.destinationFolder⟩] ∧
      t.clients = setClient
        (addTorrent s engine r.sourceFileName r.destinationFolder r.resumeState).2.clients
        s.nextPtr
        { engine.newClient with
          destinationFolder := r.destinationFolder, dumpedState := r.resumeState
          commands := engine.newClient.commands ++ [Command.start]
          downloadedBytes := r.downloadedBytes, uploadedBytes := r.uploadedBytes } := by
    unfold loadTorrent at ht
    simp only [h1, if_true, hj, List.getLast?_concat, OverviewPage.withClient, hlook,
      Option.some.injEq] at ht
    subst ht
    exact ⟨rfl, rfl⟩
  obtain ⟨htj, htc⟩ := hshape
  refine ⟨t, ht, hinv, ?_, ?_⟩
  · rw [htj]
    apply recordsOfJobs_append
    · rw [← hrec]
      apply recordsOfJobs_congr_jobs
      intro job hjob
      have hlive := hs.1.2.2.2.2.1 job hjob
      have hlt := hs.1.2.2.2.2.2.2 _ hlive
      have hne : job.client ≠ s.nextPtr := by omega
      show List.lookup job.client t.clients = List.lookup job.client s.clients
      rw [htc, lookup_setClient_ne _ _ _ _ hne, hcl, lookup_setClient_ne _ _ _ _ hne,
        lookup_append_of_mem _ _ _ hlive]
    · have hl : t.client? s.nextPtr =
          some { engine.newClient with
                 destinationFolder := r.destinationFolder, dumpedState := r.resumeState
                 commands := engine.newClient.commands ++ [Command.start]
                 downloadedBytes := r.downloadedBytes, uploadedBytes := r.uploadedBytes } := by
        show List.lookup s.nextPtr t.clients = _
        rw [htc]
        exact lookup_setClient_self _ _ _ hpmem
      simp only [recordsOfJobs, recordOfJob, hl]
  · rw [htj, List.map_append]
    rfl

theorem loadTorrents_records (engine : Engine) (hacc : ∀ f, engine.setTorrent f = true)
    (rs : List TorrentRecord) (s : OverviewPage) (rs0 : List TorrentRecord) (hs : Inv s)
    (hrec : recordsOfJobs s s.jobs = some rs0)
    (hnd : (s.jobs.map Job.key ++ rs.map TorrentRecord.key).Nodup) :
    ∃ u, loadTorrents engine rs s = some u ∧ recordsOfJobs u u.jobs = some (rs0 ++ rs) := by
  induction rs generalizing s rs0 with
  | nil => exact ⟨s, rfl, by simpa using hrec⟩
  | cons r rest ih =>
    have hnew : r.key ∉ s.jobs.map Job.key := by
      intro hmem
      have := (List.nodup_append.1 hnd).2.2
      exact this hmem (by simp)
    obtain ⟨t, ht, hinv, hrect, hkeys⟩ := loadTorrent_record s engine r rs0 hs hrec hnew (hacc _)
    have hnd' : (t.jobs.map Job.key ++ rest.map TorrentRecord.key).Nodup := by
      rw [hkeys, List.append_assoc]
      simpa using hnd
    obtain ⟨u, hu, hrecu⟩ := ih t (rs0 ++ [r]) hinv hrect hnd'
    refine ⟨u, ?_, ?_⟩
    · simp only [loadTorrents, ht, hu]
    · rw [hrecu, List.append_assoc]
      rfl

theorem loadSettings_exists_base (s : OverviewPage) (engine : Engine) (currentPath : String) :
    ∃ s3, loadSettings s engine currentPath = loadTorrents engine s.settings.torrents s3 ∧
      s3.jobs = s.jobs ∧ s3.torrentView = s.torrentView ∧ s3.clients = s.clients ∧
      s3.nextPtr = s.nextPtr := by
  refine ⟨_, rfl, ?_, ?_, ?_, ?_⟩
  · rw [(downloadLimitSliderSetValue_frame _ _).1, (uploadLimitSliderSetValue_frame _ _).1]
  · rw [(downloadLimitSliderSetValue_frame _ _).2.1, (uploadLimitSliderSetValue_frame _ _).2.1]
  · rw [(downloadLimitSliderSetValue_frame _ _).2.2.1, (uploadLimitSliderSetValue_frame _ _).2.2.1]
  · rw [(downloadLimitSliderSetValue_frame _ _).2.2.2, (uploadLimitSliderSetValue_frame _ _).2.2.2]

/-- C12 (counterexample): `pageAB` has both control values `0`; after `saveSettings` and
`loadSettings` into an empty page the jobs come back, but the controls read `170` and
`550`, because a stored `0` is taken for an absent key. -/
theorem roundtrip_zero_control_lost :
    pageAB.saveChanges = true ∧ (pageAB.jobs.map Job.key).Nodup ∧
      (pageAB.uploadLimitSlider, pageAB.downloadLimitSlider) = (0, 0) ∧
      saveSettings pageAB = some pageABSaved ∧
      (loadSettings { emptyPage with settings := pageABSaved.settings } acceptingEngine
          "/home").map
          (fun u => (u.uploadLimitSlider, u.downloadLimitSlider,
            decide (jobSummaries u = jobSummaries pageAB))) =
        some (170, 550, true) := by
  decide

/-- C12 (amended): for a well-formed page with pairwise distinct job pairs and both
control values in `1 .. 1000`, any prior record, and an engine that accepts every file,
`saveSettings` with the dirty flag set followed by `loadSettings` into a page without
jobs reproduces the ordered list of `(source, destination, uploadedBytes,
downloadedBytes)` and both control values. (A control value `0` comes back as the
default `170` or `550`.) -/
theorem save_load_roundtrip (s fresh : OverviewPage) (prior : Settings) (engine : Engine)
    (currentPath : String) (hwf : WellFormed s) (hkey : (s.jobs.map Job.key).Nodup)
    (hup : 1 ≤ s.uploadLimitSlider ∧ s.uploadLimitSlider ≤ 1000)
    (hdown : 1 ≤ s.downloadLimitSlider ∧ s.downloadLimitSlider ≤ 1000)
    (hacc : ∀ f, engine.setTorrent f = true) (hfresh : Initial fresh) :
    ∃ t u summaries,
      saveSettings { s with settings := prior, saveChanges := true } = some t ∧
      loadSettings { fresh with settings := t.settings } engine currentPath = some u ∧
      jobSummaries s = some summaries ∧ jobSummaries u = some summaries ∧
      u.uploadLimitSlider = s.uploadLimitSlider ∧
      u.downloadLimitSlider = s.downloadLimitSlider := by
  obtain ⟨rs, hrs⟩ := recordsOfJobs_isSome s s.jobs hwf.2.2.2.2.1
  have hsave := saveSettings_dirty { s with settings := prior, saveChanges := true } rs rfl
    ((recordsOfJobs_congr s { s with settings := prior, saveChanges := true } s.jobs rfl).trans
      hrs)
  obtain ⟨s3, hbase, hj3, hv3, hc3, hn3⟩ := loadSettings_exists_base
    { fresh with settings := recordOfPage s rs } engine currentPath
  have hinv0 : Inv { fresh with settings := recordOfPage s rs } :=
    initial_inv ⟨hfresh.1, hfresh.2.1, hfresh.2.2⟩
  have hinv3 : Inv s3 := Inv_congr hj3 hv3 (by rw [hc3]) hn3 hinv0
  have hjobs3 : s3.jobs = [] := hj3.trans hfresh.1
  have hrec3 : recordsOfJobs s3 s3.jobs = some [] := by
    rw [hjobs3]
    rfl
  have hnd : (s3.jobs.map Job.key ++ rs.map TorrentRecord.key).Nodup := by
    rw [hjobs3, recordsOfJobs_keys hrs]
    simpa using hkey
  obtain ⟨u, hu, hrecu⟩ := loadTorrents_records engine hacc rs s3 [] hinv3 hrec3 hnd
  have hload : loadSettings { fresh with settings := recordOfPage s rs } engine currentPath =
      some u := hbase.trans hu
  obtain ⟨hsu, hsd⟩ := loadSettings_sliders hload
  refine ⟨_, u, rs.map TorrentRecord.summary, hsave, hload, ?_, ?_, ?_, ?_⟩
  · simp [jobSummaries, hrs]
  · simp [jobSummaries, hrecu]
  · rw [hsu]
    have hne : s.uploadLimitSlider ≠ 0 := by omega
    simp only [recordOfPage, Option.getD_some, ne_eq, hne, not_false_eq_true, if_true]
    exact sliderBound_of_mem _ (by omega) hup.2
  · rw [hsd]
    have hne : s.downloadLimitSlider ≠ 0 := by omega
    simp only [recordOfPage, Option.getD_some, ne_eq, hne, not_false_eq_true, if_true]
    exact sliderBound_of_mem _ (by omega) hdown.2

theorem save_load_roundtrip_witness :
    WellFormed pageLimits ∧ (pageLimits.jobs.map Job.key).Nodup ∧
      (1 ≤ pageLimits.uploadLimitSlider ∧ pageLimits.uploadLimitSlider ≤ 1000) ∧
      (1 ≤ pageLimits.downloadLimitSlider ∧ pageLimits.downloadLimitSlider ≤ 1000) ∧
      (∀ f, acceptingEngine.setTorrent f = true) ∧ Initial emptyPage ∧
      ∃ t u summaries,
        saveSettings { pageLimits with settings := pageABSaved.settings, saveChanges := true }
          = some t ∧
        loadSettings { emptyPage with settings := t.settings } acceptingEngine "/home" = some u ∧
        jobSummaries pageLimits = some summaries ∧ jobSummaries u = some summaries ∧
        u.uploadLimitSlider = pageLimits.uploadLimitSlider ∧
        u.downloadLimitSlider = pageLimits.downloadLimitSlider :=
  have hwf : WellFormed pageLimits := by decide
  have hkey : (pageLimits.jobs.map Job.key).Nodup := by decide
  have hup : 1 ≤ pageLimits.uploadLimitSlider ∧ pageLimits.uploadLimitSlider ≤ 1000 := by
    decide
  have hdown : 1 ≤ pageLimits.downloadLimitSlider ∧ pageLimits.downloadLimitSlider ≤ 1000 := by
    decide
  have hacc : ∀ f, acceptingEngine.setTorrent f = true := fun _ => rfl
  ⟨hwf, hkey, hup, hdown, hacc, emptyPage_initial,
    save_load_roundtrip pageLimits emptyPage pageABSaved.settings acceptingEngine "/home"
      hwf hkey hup hdown hacc emptyPage_initial⟩

/-! ## Monotonicity of the rate curve -/

theorem rateCurveDiv_mono (a b : Nat) (hab : a ≤ b) (hb : b ≤ 1000) :
    rateCurveDiv a ≤ rateCurveDiv b := by
  unfold rateCurveDiv
  split <;> split <;> (try split) <;> (try split) <;> (try split) <;> (try split) <;> omega

/-- C22: `rateFromValue` is non-decreasing on the control range: for `0 ≤ a ≤ b ≤ 1000`,
`rateFromValue a ≤ rateFromValue b`; in particular across the branch boundaries
`249/250`, `499/500` and `749/750`. -/
theorem rateFromValue_mono (a b : Int) (h0 : 0 ≤ a) (hab : a ≤ b) (hb : b ≤ 1000) :
    rateFromValue a ≤ rateFromValue b ∧
    (rateFromValue 249 ≤ rateFromValue 250 ∧ rateFromValue 499 ≤ rateFromValue 500 ∧
      rateFromValue 749 ≤ rateFromValue 750) := by
  refine ⟨?_, ?_⟩
  · obtain ⟨m, rfl⟩ := Int.eq_ofNat_of_zero_le h0
    obtain ⟨n, rfl⟩ := Int.eq_ofNat_of_zero_le (le_trans h0 hab)
    have hmn : m ≤ n := by omega
    have hn : n ≤ 1000 := by omega
    rw [rateFromValue_eq_div m (by omega), rateFromValue_eq_div n (by omega)]
    exact_mod_cast rateCurveDiv_mono m n hmn hn
  · refine ⟨?_, ?_, ?_⟩ <;> decide!

theorem rateFromValue_mono_witness :
    (0 : Int) ≤ 249 ∧ (249 : Int) ≤ 250 ∧ (250 : Int) ≤ 1000 ∧
      rateFromValue 249 ≤ rateFromValue 250 :=
  ⟨by decide, by decide, by decide,
    (rateFromValue_mono 249 250 (by decide) (by decide) (by decide)).1⟩

/-! ## Jobs and view rows under calls with no handler nested in them -/

theorem map_eraseIdx_eq {α β : Type} (f : α → β) (l : List α) (r : Nat) :
    (l.eraseIdx r).map f = (l.map f).eraseIdx r := by
  induction l generalizing r with
  | nil => rfl
  | cons a t ih =>
    cases r with
    | zero => rfl
    | succ r => simp [ih]

theorem map_swapAdj {α β : Type} (f : α → β) (l : List α) (k : Nat) :
    (swapAdj l k).map f = swapAdj (l.map f) k := by
  induction l generalizing k with
  | nil => cases k <;> rfl
  | cons a t ih =>
    cases k with
    | zero => cases t <;> rfl
    | succ k => simp [swapAdj, ih]

theorem Lockstep_congr {s t : OverviewPage} (hj : t.jobs = s.jobs)
    (hv : t.torrentView = s.torrentView) (h : Lockstep s) : Lockstep t := by
  unfold Lockstep at *
  rw [hj, hv]
  exact h

theorem addTorrent_lockstep (s : OverviewPage) (engine : Engine) (f d : String)
    (r : QByteArray) (h : Lockstep s) : Lockstep (addTorrent s engine f d r).2 := by
  by_cases hdup : alreadyDownloading s.jobs f d = true
  · rw [addTorrent_of_duplicate s engine f d r hdup]; exact h
  by_cases hacc : engine.setTorrent f = true
  swap
  · rw [addTorrent_of_rejected s engine f d r (by simpa using hacc)]; exact h
  obtain ⟨-, hj, hv, -⟩ := addTorrent_accepted s engine f d r (by simpa using hdup) hacc
  unfold Lockstep at *
  rw [hj, hv, h, List.map_append]
  rfl

theorem Lockstep_eraseIdx {s t : OverviewPage} (k : Nat) (hj : t.jobs = s.jobs.eraseIdx k)
    (hv : t.torrentView = s.torrentView.eraseIdx k) (h : Lockstep s) : Lockstep t := by
  unfold Lockstep at *
  rw [hj, hv, h, map_eraseIdx_eq]

theorem Lockstep_swapAdj {s t : OverviewPage} (k : Nat) (hj : t.jobs = swapAdj s.jobs k)
    (hv : t.torrentView = swapAdj s.torrentView k) (h : Lockstep s) : Lockstep t := by
  unfold Lockstep at *
  rw [hj, hv, h, map_swapAdj]

theorem loadTorrent_lockstep {s t : OverviewPage} {engine : Engine} {r : TorrentRecord}
    (h : loadTorrent s engine r = some t) (hs : Lockstep s) : Lockstep t := by
  have hadd := addTorrent_lockstep s engine r.sourceFileName r.destinationFolder r.resumeState hs
  unfold loadTorrent at h
  dsimp only at h
  split at h
  · split at h
    · cases h
    · obtain ⟨hj, hv, -, -⟩ := withClient_frame h
      exact Lockstep_congr hj hv hadd
  · cases h
    exact hadd

theorem loadTorrents_lockstep (engine : Engine) (rs : List TorrentRecord) {s t : OverviewPage}
    (h : loadTorrents engine rs s = some t) (hs : Lockstep s) : Lockstep t := by
  induction rs generalizing s with
  | nil =>
    simp only [loadTorrents, Option.some.injEq] at h
    exact h ▸ hs
  | cons r rest ih =>
    unfold loadTorrents at h
    split at h
    · cases h
    · rename_i s1 h1
      exact ih h (loadTorrent_lockstep h1 hs)

theorem loadSettings_lockstep {s t : OverviewPage} {engine : Engine} {currentPath : String}
    (h : loadSettings s engine currentPath = some t) (hs : Lockstep s) : Lockstep t := by
  obtain ⟨s3, hbase, hj3, hv3, -, -⟩ := loadSettings_exists_base s engine currentPath
  rw [hbase] at h
  exact loadTorrents_lockstep engine _ h (Lockstep_congr hj3 hv3 hs)

theorem event_apply_lockstep {s t : OverviewPage} (e : Event) (h : e.apply s = some t)
    (hs : Lockstep s) : Lockstep t := by
  cases e with
  | addTorrent engine f d r =>
    simp only [Event.apply, Option.some.injEq] at h
    exact h ▸ addTorrent_lockstep s engine f d r hs
  | removeTorrent cur sel =>
    obtain ⟨k, -, -, hj, hv, -⟩ := removeTorrent_shape h
    exact Lockstep_eraseIdx k hj hv hs
  | torrentError sender =>
    obtain ⟨k, -, -, hj, hv, -⟩ := torrentError_shape h
    exact Lockstep_eraseIdx k hj hv hs
  | moveTorrentUp cur sel =>
    rcases moveTorrentUp_cases h with rfl | ⟨k, -, rfl⟩
    · exact hs
    · exact Lockstep_swapAdj k rfl rfl hs
  | moveTorrentDown cur sel =>
    rcases moveTorrentDown_cases h with rfl | ⟨k, -, rfl⟩
    · exact hs
    · exact Lockstep_swapAdj k rfl rfl hs
  | loadSettings engine currentPath => exact loadSettings_lockstep h hs

theorem reachable_lockstep {s : OverviewPage} (h : Reachable s) : Lockstep s := by
  induction h with
  | init s h =>
    unfold Lockstep
    rw [h.1, h.2.1]
    rfl
  | step s t e _ h ih => exact event_apply_lockstep e h ih

/-- As long as no handler runs nested in the message box of a `torrentError`: in every
state reachable by completed calls of `addTorrent`, `removeTorrent`, `torrentError`,
`moveTorrentUp`, `moveTorrentDown` and `loadSettings`, the view and the jobs sequence
have the same length, row `i` of the view is the item that `addTorrent` created for the
job now at `jobs[i]`, and the row index of an item of the view addresses the job that
item was created for. -/
theorem reachable_rows_match_jobs (s : OverviewPage) (h : Reachable s) :
    s.torrentView.length = s.jobs.length ∧
    (∀ i : Nat, s.torrentView[i]? = (s.jobs[i]?).map Job.item) ∧
    ∀ item (r : Nat), indexOfTopLevelItem s.torrentView (some item) = (r : Int) →
      ∃ job, s.jobs[r]? = some job ∧ job.item = item := by
  have hl : s.torrentView = s.jobs.map Job.item := reachable_lockstep h
  have hrows : ∀ i : Nat, s.torrentView[i]? = (s.jobs[i]?).map Job.item := by
    intro i
    rw [hl, List.getElem?_map]
  refine ⟨by rw [hl, List.length_map], hrows, ?_⟩
  intro item r hrow
  obtain ⟨p, hp, -, -, -, hget⟩ := indexOfTopLevelItem_eq_natCast hrow
  cases hp
  rw [hrows r] at hget
  cases hjob : s.jobs[r]? with
  | none => rw [hjob] at hget; cases hget
  | some job =>
    rw [hjob] at hget
    simp only [Option.map_some', Option.some.injEq] at hget
    exact ⟨job, rfl, hget⟩

theorem reachable_rows_match_jobs_witness :
    Reachable pageBA ∧ pageBA.torrentView.length = pageBA.jobs.length ∧
      (∀ i : Nat, pageBA.torrentView[i]? = (pageBA.jobs[i]?).map Job.item) ∧
      ∀ item (r : Nat), indexOfTopLevelItem pageBA.torrentView (some item) = (r : Int) →
        ∃ job, pageBA.jobs[r]? = some job ∧ job.item = item :=
  have hr : Reachable pageBA :=
    Reachable.step pageAB pageBA (Event.moveTorrentUp (some 3) (some 3)) pageAB_reachable
      pageBA_eq
  ⟨hr, reachable_rows_match_jobs pageBA hr⟩

/-! ## Coalesced saves -/

theorem scheduleSave_facts (s : OverviewPage) :
    (scheduleSave s).saveChanges = true ∧ (scheduleSave s).syncs = s.syncs ∧
    (scheduleSave s).saveTimers = (if s.saveChanges then s.saveTimers else s.saveTimers + 1) ∧
    (scheduleSave s).jobs = s.jobs ∧ (scheduleSave s).clients = s.clients := by
  unfold scheduleSave
  cases h : s.saveChanges <;> simp [h]

theorem addTorrent_accepted_flags (s : OverviewPage) (engine : Engine) (f d : String)
    (r : QByteArray) (hdup : alreadyDownloading s.jobs f d = false)
    (hacc : engine.setTorrent f = true) :
    (addTorrent s engine f d r).2.syncs = s.syncs ∧
    (addTorrent s engine f d r).2.saveTimers =
      (if s.saveChanges then s.saveTimers else s.saveTimers + 1) := by
  unfold addTorrent
  simp only [hdup, hacc, Bool.false_eq_true, if_false, Bool.not_true]
  cases hs : s.saveChanges <;> simp [hs]

theorem Mutation.apply_facts {s t : OverviewPage} (m : Mutation) (h : m.apply s = some t) :
    t.saveChanges = true ∧ t.syncs = s.syncs ∧
    t.saveTimers = (if s.saveChanges then s.saveTimers else s.saveTimers + 1) ∧
    ((∀ job ∈ s.jobs, job.client ∈ s.clients.map Prod.fst) →
      ∀ job ∈ t.jobs, job.client ∈ t.clients.map Prod.fst) := by
  cases m with
  | addTorrent engine f d r =>
    simp only [Mutation.apply] at h
    split at h
    · rename_i hok
      cases h
      obtain ⟨hdup, hacc⟩ := addTorrent_fst_eq_true hok
      obtain ⟨-, hj, -, hc, -, hflag⟩ := addTorrent_accepted s engine f d r hdup hacc
      obtain ⟨hsync, htimers⟩ := addTorrent_accepted_flags s engine f d r hdup hacc
      refine ⟨hflag, hsync, htimers, ?_⟩
      intro hlive job hjob
      rw [hj] at hjob
      rw [hc]
      rcases List.mem_append.1 hjob with h1 | h1
      · exact List.mem_append_left _ (hlive job h1)
      · simp at h1
        subst h1
        simp
    · cases h
  | downloadRate sender n =>
    simp only [Mutation.apply, updateDownloadRate] at h
    split at h
    · cases h
    · cases h
      obtain ⟨h1, h2, h3, h4, h5⟩ := scheduleSave_facts s
      exact ⟨h1, h2, h3, fun hlive => by rw [h4, h5]; exact hlive⟩
  | uploadRate sender n =>
    simp only [Mutation.apply, updateUploadRate] at h
    split at h
    · cases h
    · cases h
      obtain ⟨h1, h2, h3, h4, h5⟩ := scheduleSave_facts s
      exact ⟨h1, h2, h3, fun hlive => by rw [h4, h5]; exact hlive⟩

theorem runBurst_dirty (burst : List Mutation) {s t : OverviewPage}
    (h : runBurst burst s = some t) (hd : s.saveChanges = true)
    (hlive : ∀ job ∈ s.jobs, job.client ∈ s.clients.map Prod.fst) :
    t.saveChanges = true ∧ t.syncs = s.syncs ∧ t.saveTimers = s.saveTimers ∧
      ∀ job ∈ t.jobs, job.client ∈ t.clients.map Prod.fst := by
  induction burst generalizing s with
  | nil =>
    simp only [runBurst, Option.some.injEq] at h
    subst h
    exact ⟨hd, rfl, rfl, hlive⟩
  | cons m rest ih =>
    unfold runBurst at h
    split at h
    · cases h
    · rename_i s1 h1
      obtain ⟨a1, a2, a3, a4⟩ := m.apply_facts h1
      rw [hd, if_pos rfl] at a3
      obtain ⟨b1, b2, b3, b4⟩ := ih h a1 (a4 hlive)
      exact ⟨b1, b2.trans a2, b3.trans a3, b4⟩

theorem runBurst_clean (burst : List Mutation) {s t : OverviewPage}
    (h : runBurst burst s = some t) (hd : s.saveChanges = false) (hne : burst ≠ [])
    (hlive : ∀ job ∈ s.jobs, job.client ∈ s.clients.map Prod.fst) :
    t.saveChanges = true ∧ t.syncs = s.syncs ∧ t.saveTimers = s.saveTimers + 1 ∧
      ∀ job ∈ t.jobs, job.client ∈ t.clients.map Prod.fst := by
  cases burst with
  | nil => exact absurd rfl hne
  | cons m rest =>
    unfold runBurst at h
    split at h
    · cases h
    · rename_i s1 h1
      obtain ⟨a1, a2, a3, a4⟩ := m.apply_facts h1
      rw [hd] at a3
      obtain ⟨b1, b2, b3, b4⟩ := runBurst_dirty rest h a1 (a4 hlive)
      exact ⟨b1, b2.trans a2, b3.trans (by simpa using a3), b4⟩

theorem saveSettings_facts {s u : OverviewPage} (h : saveSettings s = some u) :
    u.saveChanges = false ∧ u.saveTimers = s.saveTimers ∧
    (s.saveChanges = true → u.syncs = s.syncs + 1) ∧ (s.saveChanges = false → u = s) := by
  cases hc : s.saveChanges with
  | false =>
    rw [saveSettings_clean s hc] at h
    cases h
    refine ⟨hc, rfl, ?_, fun _ => rfl⟩
    intro ht
    cases ht
  | true =>
    unfold saveSettings at h
    simp only [hc, Bool.not_true, Bool.false_eq_true, if_false] at h
    split at h
    · cases h
    · cases h
      refine ⟨rfl, rfl, fun _ => rfl, ?_⟩
      intro hf
      cases hf

/-- C21: `saveSettings` writes exactly when `saveChanges` is set and always leaves it
clear; a mutation event (successful add, download or upload rate sample) that arrives
while `saveChanges` is set arms no further timer. Hence a non-empty burst of such events
starting from a clean flag arms exactly one `saveSettings` timer, the save that follows
makes exactly one write, and a second `saveSettings` without a mutation in between
changes nothing. -/
theorem saves_coalesced (s : OverviewPage) :
    (∀ u, saveSettings s = some u →
      u.saveChanges = false ∧ (s.saveChanges = true → u.syncs = s.syncs + 1) ∧
      (s.saveChanges = false → u = s)) ∧
    (∀ (m : Mutation) t, s.saveChanges = true → m.apply s = some t →
      t.saveTimers = s.saveTimers ∧ t.saveChanges = true ∧ t.syncs = s.syncs) ∧
    (∀ (burst : List Mutation) t, (∀ job ∈ s.jobs, job.client ∈ s.clients.map Prod.fst) →
      s.saveChanges = false → burst ≠ [] → runBurst burst s = some t →
      t.saveTimers = s.saveTimers + 1 ∧ t.syncs = s.syncs ∧
      ∃ u, saveSettings t = some u ∧ u.syncs = s.syncs + 1 ∧
        u.saveTimers = s.saveTimers + 1 ∧ u.saveChanges = false ∧ saveSettings u = some u) := by
  refine ⟨?_, ?_, ?_⟩
  · intro u hu
    obtain ⟨h1, -, h3, h4⟩ := saveSettings_facts hu
    exact ⟨h1, h3, h4⟩
  · intro m t hd hm
    obtain ⟨a1, a2, a3, -⟩ := m.apply_facts hm
    rw [hd, if_pos rfl] at a3
    exact ⟨a3, a1, a2⟩
  · intro burst t hlive hd hne hrun
    obtain ⟨b1, b2, b3, b4⟩ := runBurst_clean burst hrun hd hne hlive
    obtain ⟨u, hu⟩ := saveSettings_isSome t b4
    obtain ⟨c1, c2, c3, -⟩ := saveSettings_facts hu
    refine ⟨b3, b2, u, hu, ?_, ?_, c1, saveSettings_clean u c1⟩
    · rw [c3 b1, b2]
    · rw [c2, b3]

theorem saves_coalesced_witness :
    (∀ job ∈ pageABSaved.jobs, job.client ∈ pageABSaved.clients.map Prod.fst) ∧
      pageABSaved.saveChanges = false ∧ sampleBurst ≠ [] ∧
      (runBurst sampleBurst pageABSaved).map
          (fun t => (t.jobs.map Job.torrentFileName, t.saveChanges)) =
        some (["a.torrent", "b.torrent", "c.torrent"], true) ∧
      ∀ t, runBurst sampleBurst pageABSaved = some t →
        t.saveTimers = pageABSaved.saveTimers + 1 ∧ t.syncs = pageABSaved.syncs ∧
        ∃ u, saveSettings t = some u ∧ u.syncs = pageABSaved.syncs + 1 ∧
          u.saveTimers = pageABSaved.saveTimers + 1 ∧ u.saveChanges = false ∧
          saveSettings u = some u :=
  have hlive : ∀ job ∈ pageABSaved.jobs, job.client ∈ pageABSaved.clients.map Prod.fst := by
    decide
  have hne : sampleBurst ≠ [] := by simp [sampleBurst]
  ⟨hlive, rfl, hne, by decide,
    fun t ht => (saves_coalesced pageABSaved).2.2 sampleBurst t hlive rfl hne ht⟩

/-! ## Handlers nested in the message box of `torrentError` -/

/-- With no handler running while the box is open, the two parts of `torrentError` make
up the handler `torrentError`. -/
theorem torrentErrorNested_some (s : OverviewPage) (sender : Nat) :
    torrentErrorNested s sender some = torrentError s sender := by
  unfold torrentErrorNested torrentErrorBegin torrentError torrentErrorEnd
  dsimp only
  cases QList.at s.jobs (rowOfClient s sender) <;> rfl

/-- C23 (failing input): on the reachable page `pageAB` (jobs `[A, B]`, rows `[1, 3]`) the
client of `B` reports an error, and while the message box of that call is open the client
of `A` reports an error that is handled to its end. The call for `B` then takes the row
`1` it computed before the box, which is no longer there. Both calls have completed, the
jobs sequence is empty and the view still holds the row of `B`. -/
theorem nested_error_breaks_lockstep :
    Reachable pageAB ∧
    pageAB.jobs.map Job.item = pageAB.torrentView ∧
    (torrentErrorBegin pageAB 2).map (fun p => (p.1, p.2.jobs.map Job.item, p.2.torrentView)) =
      some (1, [1], [1, 3]) ∧
    (torrentErrorNested pageAB 2 (fun s => torrentError s 0)).map
        (fun t => (t.jobs, t.torrentView)) = some ([], [3]) ∧
    (torrentError pageAB 2).map (fun t => (t.jobs.map Job.item, t.torrentView)) =
      some ([1], [1]) :=
  ⟨pageAB_reachable, by decide⟩

end SeedPay
